import Mathlib

/-!
# Verification of the skilldock local-skills engine

Shallow embedding of `src/skilldock/local_skills.py`: the version
comparator, the requirement matcher, the dependency-graph resolver, the
archive extractor/installer and the reconciler, together with proofs of
the specification claims C1–C10.

Python strings are modelled as `String` / `List Char` (code-point
semantics); Python exceptions (`SkilldockError` and subclasses) are
modelled with `Except String`; Python dicts (string-keyed,
insertion-ordered) are modelled as association lists with
update-in-place-or-append assignment.
-/

namespace Skilldock

/-! ## Python string primitives (on `List Char`) -/

/-- Python whitespace for `str.strip` / `str.split()` (ASCII subset). -/
def isPySpace (c : Char) : Bool :=
  c = ' ' || c = '\t' || c = '\n' || c = '\r' || c = '\x0b' || c = '\x0c'

/-- `str.strip()`: drop whitespace from both ends. -/
def pyStrip (l : List Char) : List Char :=
  ((l.dropWhile isPySpace).reverse.dropWhile isPySpace).reverse

/-- `str.split(sep)` for a one-character separator: keeps empty pieces,
`"".split(sep) == [""]`. -/
def splitOnCh (sep : Char) : List Char → List (List Char)
  | [] => [[]]
  | c :: rest =>
    if c = sep then [] :: splitOnCh sep rest
    else
      match splitOnCh sep rest with
      | [] => [[c]]
      | h :: t => (c :: h) :: t

/-- `str.split(sep, 1)`: split at the first occurrence of `sep`, if any. -/
def splitOnce (sep : Char) : List Char → Option (List Char × List Char)
  | [] => none
  | c :: rest =>
    if c = sep then some ([], rest)
    else (splitOnce sep rest).map (fun p => (c :: p.1, p.2))

/-- `str.split()` with no argument: split on whitespace runs, dropping
empty pieces. -/
def wsSplit (l : List Char) : List (List Char) :=
  ((l.splitOnP isPySpace).filter (· ≠ []))

/-- Python `str.isdigit()` restricted to ASCII: nonempty and all digits. -/
def pyIsDigit (l : List Char) : Bool :=
  !l.isEmpty && l.all Char.isDigit

/-- `int(s)` for an all-digit string. -/
def natOfDigits (l : List Char) : Nat :=
  l.foldl (fun n c => n * 10 + (c.toNat - 48)) 0

/-- Three-way comparison of Python strings (code-point lexicographic). -/
def lexCmp : List Char → List Char → Int
  | [], [] => 0
  | [], _ :: _ => -1
  | _ :: _, [] => 1
  | x :: xs, y :: ys =>
    if x.toNat < y.toNat then -1
    else if y.toNat < x.toNat then 1
    else lexCmp xs ys

/-- Three-way comparison of Python int tuples (lexicographic,
shorter prefix first). -/
def listCmpNat : List Nat → List Nat → Int
  | [], [] => 0
  | [], _ :: _ => -1
  | _ :: _, [] => 1
  | x :: xs, y :: ys =>
    if x < y then -1
    else if y < x then 1
    else listCmpNat xs ys

/-! ## `_split_version` and `compare_versions` -/

/-- Right-pad the numeric core with zeros to length ≥ 3
(`while len(nums) < 3: nums.append(0)`). -/
def padTo3 (l : List Nat) : List Nat :=
  l ++ List.replicate (3 - l.length) 0

/-- `_split_version`: returns the padded numeric core and the optional
prerelease identifiers, or `none` where the Python code raises
`ValueError`. -/
def splitVersionL (version : List Char) : Option (List Nat × Option (List (List Char))) :=
  let raw := pyStrip version
  if raw = [] then none
  else
    let raw := raw.takeWhile (· ≠ '+')  -- split("+", 1)[0]: ignore build metadata
    let (main_s, pre_parts) :=
      match splitOnce '-' raw with
      | some (m, p) => (m, some ((splitOnCh '.' p).filter (· ≠ [])))
      | none => (raw, none)
    let main_parts := splitOnCh '.' main_s
    if main_parts.any (fun p => !pyIsDigit p) then none
    else some (padTo3 (main_parts.map natOfDigits), pre_parts)

/-- The prerelease comparison loop of `compare_versions`. -/
def preCmp : List (List Char) → List (List Char) → Int
  | [], [] => 0
  | [], _ :: _ => -1
  | _ :: _, [] => 1
  | x :: xs, y :: ys =>
    if pyIsDigit x && pyIsDigit y then
      if natOfDigits x < natOfDigits y then -1
      else if natOfDigits y < natOfDigits x then 1
      else preCmp xs ys
    else if pyIsDigit x && !pyIsDigit y then -1
    else if !pyIsDigit x && pyIsDigit y then 1
    else
      if lexCmp x y = -1 then -1
      else if lexCmp x y = 1 then 1
      else preCmp xs ys

/-- `compare_versions` on char lists. -/
def compareVersionsL (a b : List Char) : Int :=
  match splitVersionL a, splitVersionL b with
  | some (ma, pa), some (mb, pb) =>
    if listCmpNat ma mb = -1 then -1
    else if listCmpNat ma mb = 1 then 1
    else
      match pa, pb with
      | none, none => 0
      | none, some _ => 1
      | some _, none => -1
      | some la, some lb => preCmp la lb
  | _, _ => lexCmp a b  -- ValueError: fall back to lexical string comparison

/-- `compare_versions` on strings. -/
def compareVersions (a b : String) : Int :=
  compareVersionsL a.data b.data

deriving instance DecidableEq for Except

/-! ## Requirement matcher -/

/-- `str(n)` for the numbers appearing in caret/tilde expansion. -/
def natChars (n : Nat) : List Char :=
  (Nat.repr n).data

/-- `SkilldockError(f"Invalid version requirement: {token!r}")`. -/
def invalidReqMsg (token : List Char) : String :=
  "Invalid version requirement: '" ++ String.mk token ++ "'"

/-- `_expand_caret` (`none` models the `ValueError` from `_split_version`). -/
def expandCaret (spec : List Char) : Option (List (List Char)) :=
  let base := pyStrip (spec.drop 1)
  match splitVersionL base with
  | none => none
  | some (nums, _) =>
    match nums.take 3 with
    | [major, minor, patch] =>
      let lower := ['>', '='] ++ natChars major ++ ['.'] ++ natChars minor ++ ['.'] ++ natChars patch
      let upper :=
        if major > 0 then ['<'] ++ natChars (major + 1) ++ (".0.0").data
        else if minor > 0 then ("<0.").data ++ natChars (minor + 1) ++ (".0").data
        else ("<0.0.").data ++ natChars (patch + 1)
      some [lower, upper]
    | _ => none  -- unreachable: the padded numeric core has length ≥ 3

/-- `_expand_tilde` (`none` models the `ValueError` from `_split_version`). -/
def expandTilde (spec : List Char) : Option (List (List Char)) :=
  let base := pyStrip (spec.drop 1)
  match splitVersionL base with
  | none => none
  | some (nums, _) =>
    match nums.take 3 with
    | [major, minor, patch] =>
      let lower := ['>', '='] ++ natChars major ++ ['.'] ++ natChars minor ++ ['.'] ++ natChars patch
      let upper := ['<'] ++ natChars major ++ ['.'] ++ natChars (minor + 1) ++ ['.', '0']
      some [lower, upper]
    | _ => none  -- unreachable: the padded numeric core has length ≥ 3

/-- The token loop of `_split_specifier`: expand caret/tilde tokens,
raising `SkilldockError` when the base version is malformed. -/
def expandTokens : List (List Char) → Except String (List (List Char))
  | [] => .ok []
  | t :: ts =>
    if t.take 1 = ['^'] then
      match expandCaret t with
      | none => .error (invalidReqMsg t)
      | some out =>
        match expandTokens ts with
        | .error e => .error e
        | .ok rest => .ok (out ++ rest)
    else if t.take 1 = ['~'] then
      match expandTilde t with
      | none => .error (invalidReqMsg t)
      | some out =>
        match expandTokens ts with
        | .error e => .error e
        | .ok rest => .ok (out ++ rest)
    else
      match expandTokens ts with
      | .error e => .error e
      | .ok rest => .ok (t :: rest)

/-- `_split_specifier`. -/
def splitSpecifier (specifier : List Char) : Except String (List (List Char)) :=
  let s := pyStrip specifier
  if s = [] then .ok [("latest").data]
  else
    let s := s.map (fun c => if c = ',' then ' ' else c)  -- s.replace(",", " ")
    let tokens := wsSplit s
    if tokens = [] then .ok [("latest").data]
    else expandTokens tokens

/-- Character class `[0-9A-Za-z.\-+]` of `_COMPARATOR_RE`. -/
def comparatorCls (c : Char) : Bool :=
  c.isAlphanum || c = '.' || c = '-' || c = '+'

/-- `_COMPARATOR_RE.match(token)`: returns the operator group (possibly
empty) and the version group. -/
def matchComparator (token : List Char) : Option (List Char × List Char) :=
  let (op, rest) :=
    if token.take 2 = ['>', '='] then (['>', '='], token.drop 2)
    else if token.take 2 = ['<', '='] then (['<', '='], token.drop 2)
    else if token.take 1 = ['>'] then (['>'], token.drop 1)
    else if token.take 1 = ['<'] then (['<'], token.drop 1)
    else if token.take 2 = ['=', '='] then (['=', '='], token.drop 2)
    else if token.take 1 = ['='] then (['='], token.drop 1)
    else ([], token)
  let rhs := rest.dropWhile isPySpace
  match rhs with
  | [] => none
  | c :: cs => if c.isAlphanum && cs.all comparatorCls then some (op, rhs) else none

/-- `op = m.group(1) or "="`: an absent operator group defaults to `=`. -/
def normOp (opRaw : List Char) : List Char :=
  if opRaw = [] then ['='] else opRaw

/-- The token loop of `version_satisfies`. -/
def versionSatisfiesTok (version : List Char) : List (List Char) → Bool
  | [] => true
  | token :: rest =>
    if (pyStrip token).map Char.toLower = ("latest").data
        ∨ (pyStrip token).map Char.toLower = ['*'] then
      versionSatisfiesTok version rest
    else
      match matchComparator (pyStrip token) with
      | none => false
      | some (opRaw, rhs) =>
        if normOp opRaw = ['='] ∨ normOp opRaw = ['=', '='] then
          if compareVersionsL version rhs ≠ 0 then false else versionSatisfiesTok version rest
        else if normOp opRaw = ['>'] then
          if compareVersionsL version rhs ≤ 0 then false else versionSatisfiesTok version rest
        else if normOp opRaw = ['>', '='] then
          if compareVersionsL version rhs < 0 then false else versionSatisfiesTok version rest
        else if normOp opRaw = ['<'] then
          if compareVersionsL version rhs ≥ 0 then false else versionSatisfiesTok version rest
        else if normOp opRaw = ['<', '='] then
          if compareVersionsL version rhs > 0 then false else versionSatisfiesTok version rest
        else false

/-- `version_satisfies` (an `.error` models the `SkilldockError` raised
while expanding a malformed caret/tilde token). -/
def versionSatisfiesL (version specifier : List Char) : Except String Bool :=
  match splitSpecifier specifier with
  | .error e => .error e
  | .ok tokens => .ok (versionSatisfiesTok version tokens)

/-- `version_satisfies` on strings. -/
def versionSatisfies (version specifier : String) : Except String Bool :=
  versionSatisfiesL version.data specifier.data

/-- The token analysis of `_extract_exact_version` (everything after
`_split_specifier` succeeded; no further exception can occur). -/
def extractFromTokens : List (List Char) → Option (List Char)
  | [tok] =>
    if pyStrip tok = [] ∨ (pyStrip tok).map Char.toLower = ("latest").data
        ∨ (pyStrip tok).map Char.toLower = ['*'] then
      none
    else if (pyStrip tok).take 1 = ['^'] ∨ (pyStrip tok).take 1 = ['~']
        ∨ (pyStrip tok).take 1 = ['>'] ∨ (pyStrip tok).take 1 = ['<'] then
      none
    else
      match matchComparator (pyStrip tok) with
      | none => none
      | some (opRaw, rhs) =>
        if normOp opRaw = ['='] ∨ normOp opRaw = ['=', '='] then some rhs else none
  | _ => none

/-- `_extract_exact_version`. -/
def extractExactVersionL (specifier : List Char) : Except String (Option (List Char)) :=
  match splitSpecifier specifier with
  | .error e => .error e
  | .ok tokens => .ok (extractFromTokens tokens)

/-- `_extract_exact_version` on strings. -/
def extractExactVersion (specifier : String) : Except String (Option String) :=
  (extractExactVersionL specifier.data).map (·.map String.mk)

/-! ## Data model -/

/-- `SkillRef` (dataclass); `nspace` stands for the Python field
`namespace`, a reserved word in Lean. -/
structure SkillRef where
  nspace : String
  slug : String
deriving DecidableEq, Repr

/-- `SkillRef.key = f"{namespace}/{slug}"`. -/
def SkillRef.key (r : SkillRef) : String :=
  r.nspace ++ "/" ++ r.slug

/-- `DependencySpec` (dataclass). -/
structure DependencySpec where
  ref : SkillRef
  version_requirement : Option String := none
  release_version : Option String := none
deriving DecidableEq, Repr

/-- `SkillRelease` (dataclass). -/
structure SkillRelease where
  ref : SkillRef
  version : String
  dependencies : List DependencySpec
  sha256 : Option String := none
  download_url : Option String := none
deriving DecidableEq, Repr

/-- `Requirement` (dataclass). -/
structure Requirement where
  specifier : String
  source : String
deriving DecidableEq, Repr

/-- The `ReleaseRepository` protocol, as a pure record; an `.error`
models a raised `SkilldockError` (including `SkilldockHTTPError`, a
subclass). `downloadArchive` returns `Unit`: archive bytes are not
modelled. -/
structure ReleaseRepository where
  listReleases : SkillRef → Except String (List SkillRelease)
  getRelease : SkillRef → String → Except String (Option SkillRelease)
  downloadArchive : SkillRelease → Except String Unit

/-- `parse_skill_ref`. -/
def parseSkillRef (value : String) : Except String SkillRef :=
  let raw := pyStrip value.data
  match splitOnce '/' raw with
  | none =>
    .error ("Invalid skill identifier '" ++ value ++ "'. Expected <namespace>/<slug>.")
  | some (n, s) =>
    let n := pyStrip n
    let s := pyStrip s
    if n = [] || s = [] then
      .error ("Invalid skill identifier '" ++ value ++ "'. Expected <namespace>/<slug>.")
    else .ok ⟨String.mk n, String.mk s⟩

/-- `normalize_requirement`. -/
def normalizeRequirement (value : Option String) : String :=
  let raw := pyStrip (value.getD "").data
  if raw = [] then "latest" else String.mk raw

/-- `_version_satisfies_all`: short-circuiting `all(...)`. -/
def versionSatisfiesAll (version : String) : List Requirement → Except String Bool
  | [] => .ok true
  | r :: rs =>
    match versionSatisfies version r.specifier with
    | .error e => .error e
    | .ok b => if b then versionSatisfiesAll version rs else .ok false

/-- `_format_requirement_debug`. -/
def formatRequirementDebug (reqs : List Requirement) : String :=
  if reqs = [] then "<none>"
  else String.intercalate ", " (reqs.map (fun r => r.specifier ++ " (from " ++ r.source ++ ")"))

/-- `_has_download_url`. -/
def hasDownloadUrl (rel : SkillRelease) : Bool :=
  match rel.download_url with
  | some s => pyStrip s.data ≠ []
  | none => false

/-! ## Insertion-ordered dict model (association lists) -/

/-- Python dicts with string keys: insertion-ordered association lists. -/
abbrev AList (α : Type) := List (String × α)

/-- `m[k]` / `m.get(k)`: first matching entry. -/
def alGet {α : Type} : AList α → String → Option α
  | [], _ => none
  | (k', v) :: rest, k => if k' = k then some v else alGet rest k

/-- `m[k] = v`: update in place when the key exists, else append. -/
def alSet {α : Type} : AList α → String → α → AList α
  | [], k, v => [(k, v)]
  | (k', v') :: rest, k, v =>
    if k' = k then (k, v) :: rest else (k', v') :: alSet rest k v

/-- `m.pop(k, None)`: drop the entry for `k`. -/
def alPop {α : Type} : AList α → String → AList α
  | [], _ => []
  | (k', v') :: rest, k => if k' = k then rest else (k', v') :: alPop rest k

/-- `list(m.keys())`. -/
def alKeys {α : Type} (m : AList α) : List String :=
  m.map (·.1)

/-- `m.setdefault(k, []).append(x)`. -/
def alAppendAt {β : Type} : AList (List β) → String → β → AList (List β)
  | [], k, x => [(k, [x])]
  | (k', v') :: rest, k, x =>
    if k' = k then (k', v' ++ [x]) :: rest else (k', v') :: alAppendAt rest k x

/-- Helper for `dedupFirst`: skip elements already seen. -/
def dedupFirstAux {α : Type} [DecidableEq α] (seen : List α) : List α → List α
  | [] => []
  | x :: xs =>
    if x ∈ seen then dedupFirstAux seen xs
    else x :: dedupFirstAux (x :: seen) xs

/-- `list(dict.fromkeys(l))`: deduplicate keeping first occurrences. -/
def dedupFirst {α : Type} [DecidableEq α] (l : List α) : List α :=
  dedupFirstAux [] l

/-! ## Sorting (Python `sorted`, stable) -/

/-- Insert for a stable descending sort by a comparator
(`sorted(key=cmp_to_key(cmp), reverse=True)`). -/
def insertDescBy {α : Type} (cmp : α → α → Int) (x : α) : List α → List α
  | [] => [x]
  | y :: ys => if cmp x y ≥ 0 then x :: y :: ys else y :: insertDescBy cmp x ys

/-- Stable descending sort by a comparator. -/
def sortDescBy {α : Type} (cmp : α → α → Int) : List α → List α
  | [] => []
  | x :: xs => insertDescBy cmp x (sortDescBy cmp xs)

/-- `sorted` over strings (ascending, lexicographic by code point). -/
def insertAscStr (x : String) : List String → List String
  | [] => [x]
  | y :: ys => if lexCmp x.data y.data ≤ 0 then x :: y :: ys else y :: insertAscStr x ys

/-- `sorted(list_of_str)`. -/
def sortStrings : List String → List String
  | [] => []
  | x :: xs => insertAscStr x (sortStrings xs)

/-- Python tuple comparison for `(key, value)` string pairs. -/
def pairLe (a b : String × String) : Bool :=
  lexCmp a.1.data b.1.data = -1 ||
    (lexCmp a.1.data b.1.data = 0 && !(lexCmp a.2.data b.2.data = 1))

/-- Insert for `sorted(d.items())`. -/
def insertPairAsc (x : String × String) : List (String × String) → List (String × String)
  | [] => [x]
  | y :: ys => if pairLe x y then x :: y :: ys else y :: insertPairAsc x ys

/-- `sorted(d.items())`. -/
def sortPairs : List (String × String) → List (String × String)
  | [] => []
  | x :: xs => insertPairAsc x (sortPairs xs)

/-! ## `_candidate_releases` -/

/-- The generator inside the set comprehension of `_candidate_releases`:
`_extract_exact_version` of each specifier, in order, `None`s dropped. -/
def collectExacts : List Requirement → Except String (List String)
  | [] => .ok []
  | r :: rs =>
    match extractExactVersion r.specifier with
    | .error e => .error e
    | .ok none => collectExacts rs
    | .ok (some v) =>
      match collectExacts rs with
      | .error e => .error e
      | .ok vs => .ok (v :: vs)

/-- `{v for r in requirements if (v := _extract_exact_version(r.specifier)) is not None}`
as a duplicate-free list (first-occurrence order). -/
def extractExacts (reqs : List Requirement) : Except String (List String) :=
  match collectExacts reqs with
  | .error e => .error e
  | .ok vs => .ok (dedupFirst vs)

/-- The `SkilldockError` message for an exact-pin conflict. -/
def conflictMsg (ref : SkillRef) (exacts : List String) (reqs : List Requirement) : String :=
  "Dependency conflict for " ++ ref.key ++ ": multiple exact versions requested ("
    ++ String.intercalate ", " (sortStrings exacts) ++ "). Constraints: "
    ++ formatRequirementDebug reqs

/-- The `SkilldockError` message when no release satisfies the constraints. -/
def noReleaseMsg (ref : SkillRef) (reqs : List Requirement) : String :=
  "No release found for " ++ ref.key ++ " that satisfies constraints: "
    ++ formatRequirementDebug reqs

/-- The `SkilldockError` message when matches exist but none is downloadable. -/
def noDownloadMsg (ref : SkillRef) (reqs : List Requirement) (matched : List SkillRelease) : String :=
  "No downloadable release found for " ++ ref.key ++ " that satisfies constraints: "
    ++ formatRequirementDebug reqs ++ ". List payload had no download_url; "
    ++ "attempted per-version lookup for "
    ++ String.intercalate ", " (sortDescBy compareVersions (dedupFirst (matched.map (·.version))))
    ++ ", but none provided a download URL."

/-- `_hydrate_release_from_version_lookup`. -/
def hydrateRelease (repo : ReleaseRepository) (rel : SkillRelease) : Except String SkillRelease :=
  if hasDownloadUrl rel then .ok rel
  else
    match repo.getRelease rel.ref rel.version with
    | .error e => .error e
    | .ok none => .ok rel
    | .ok (some h) =>
      if h.ref.key ≠ rel.ref.key then .ok rel
      else if compareVersions h.version rel.version ≠ 0 then .ok rel
      else .ok h

/-- `[r for r in releases if _version_satisfies_all(r.version, requirements)]`. -/
def filterSatisfying (reqs : List Requirement) : List SkillRelease → Except String (List SkillRelease)
  | [] => .ok []
  | r :: rest =>
    match versionSatisfiesAll r.version reqs with
    | .error e => .error e
    | .ok b =>
      match filterSatisfying reqs rest with
      | .error e => .error e
      | .ok tl => .ok (if b then r :: tl else tl)

/-- Hydrate every matched release in order
(`[_hydrate_release_from_version_lookup(r, repo=repo) for r in matched]`). -/
def hydrateAll (repo : ReleaseRepository) : List SkillRelease → Except String (List SkillRelease)
  | [] => .ok []
  | r :: rest =>
    match hydrateRelease repo r with
    | .error e => .error e
    | .ok h =>
      match hydrateAll repo rest with
      | .error e => .error e
      | .ok tl => .ok (h :: tl)

/-- The list-and-filter slow path of `_candidate_releases`. -/
def candidateReleasesSlow (repo : ReleaseRepository) (ref : SkillRef) (reqs : List Requirement) :
    Except String (List SkillRelease) :=
  match repo.listReleases ref with
  | .error e => .error e
  | .ok releases =>
    let releases := sortDescBy (fun a b => compareVersions a.version b.version) releases
    match filterSatisfying reqs releases with
    | .error e => .error e
    | .ok matched =>
      match hydrateAll repo matched with
      | .error e => .error e
      | .ok hydrated =>
        let filtered := hydrated.filter hasDownloadUrl
        if filtered ≠ [] then .ok filtered
        else if matched ≠ [] then .error (noDownloadMsg ref reqs matched)
        else .error (noReleaseMsg ref reqs)

/-- `_candidate_releases`. -/
def candidateReleases (repo : ReleaseRepository) (ref : SkillRef) (reqs : List Requirement) :
    Except String (List SkillRelease) :=
  match extractExacts reqs with
  | .error e => .error e
  | .ok exacts =>
    if exacts.length > 1 then
      .error (conflictMsg ref exacts reqs)
    else
      match exacts with
      | [version] =>
        -- fast path: constraints collapse to one exact version
        match repo.getRelease ref version with
        | .error e => .error e
        | .ok (some rel) =>
          match versionSatisfiesAll rel.version reqs with
          | .error e => .error e
          | .ok sat =>
            if sat && hasDownloadUrl rel then .ok [rel]
            else candidateReleasesSlow repo ref reqs
        | .ok none => candidateReleasesSlow repo ref reqs
      | _ => candidateReleasesSlow repo ref reqs

/-! ## `resolve_dependency_graph` -/

/-- The value returned by one `_search` call: `result` is the Python
return value (`None` or the solved pair), `lastError` the nonlocal
`last_error` as updated by the call. -/
structure SearchRes where
  result : Option (AList SkillRelease × AList (List Requirement))
  lastError : Option String
deriving DecidableEq, Repr

/-- The revisit loop of `_search`: re-check every already-selected key
against its current constraints; unselect failing keys and re-insert
them at the front of `pending`. -/
def revalidate (cons : AList (List Requirement)) :
    List String → AList SkillRelease → List String →
    Except String (AList SkillRelease × List String)
  | [], sel, pend => .ok (sel, pend)
  | k :: ks, sel, pend =>
    match alGet sel k with
    | none => revalidate cons ks sel pend  -- unreachable: k is a key of sel
    | some rel =>
      match versionSatisfiesAll rel.version ((alGet cons k).getD []) with
      | .error e => .error e
      | .ok ok =>
        if ok then revalidate cons ks sel pend
        else revalidate cons ks (alPop sel k) (if k ∈ pend then pend else k :: pend)

/-- The constraint specs one `DependencySpec` contributes: an exact pin
from `release_version`, then `version_requirement`, defaulting to
`"latest"` when both are absent/empty. -/
def depSpecs (dep : DependencySpec) : List String :=
  let specs :=
    (match dep.release_version with
     | some rv => if rv ≠ "" then ["=" ++ rv] else []
     | none => []) ++
    (match dep.version_requirement with
     | some vr => if vr ≠ "" then [vr] else []
     | none => [])
  if specs = [] then ["latest"] else specs

/-- The constraint map after appending one dependency's Requirements. -/
def depConsNext (key candVersion : String) (dep : DependencySpec)
    (cons : AList (List Requirement)) : AList (List Requirement) :=
  (depSpecs dep).foldl
    (fun c sp => alAppendAt c dep.ref.key ⟨sp, key ++ "@" ++ candVersion⟩) cons

/-- Unselect an already-selected dependency that no longer satisfies its
updated constraints (`if dep_key in selected_next and not …: pop`). -/
def depSelNext (depKey : String) (consNext : AList (List Requirement))
    (sel : AList SkillRelease) : Except String (AList SkillRelease) :=
  match alGet sel depKey with
  | some selRel =>
    match versionSatisfiesAll selRel.version ((alGet consNext depKey).getD []) with
    | .error e => .error e
    | .ok ok => .ok (if ok then sel else alPop sel depKey)
  | none => .ok sel

/-- The dependency loop of `_search` run for one tentatively selected
candidate: accumulate one `Requirement` per declared spec, unselect a
selected dependency that no longer satisfies its constraints, and queue
unselected dependencies. -/
def applyDeps (key candVersion : String) :
    List DependencySpec → AList SkillRelease → AList (List Requirement) → List String →
    Except String (AList SkillRelease × AList (List Requirement) × List String)
  | [], sel, cons, pend => .ok (sel, cons, pend)
  | dep :: deps, sel, cons, pend =>
    match depSelNext dep.ref.key (depConsNext key candVersion dep cons) sel with
    | .error e => .error e
    | .ok selNext =>
      applyDeps key candVersion deps selNext (depConsNext key candVersion dep cons)
        (if alGet selNext dep.ref.key = none ∧ dep.ref.key ∉ pend
         then pend ++ [dep.ref.key] else pend)

/-- The candidate loop of `_search`: try each candidate in order,
returning the first recursive success and threading `last_error`. -/
def tryCandidates
    (recur : AList SkillRelease → AList (List Requirement) → List String → Option String →
      Except String SearchRes)
    (key : String) (selectedMut : AList SkillRelease)
    (constraintsMap : AList (List Requirement)) (rest : List String) :
    List SkillRelease → Option String → Except String SearchRes
  | [], lastErr => .ok ⟨none, lastErr⟩
  | cand :: cands, lastErr =>
    match applyDeps key cand.version cand.dependencies (alSet selectedMut key cand) constraintsMap rest with
    | .error e => .error e
    | .ok (selNext, consNext, pendNext) =>
      match recur selNext consNext pendNext lastErr with
      | .error e => .error e
      | .ok r =>
        match r.result with
        | some _ => .ok r
        | none => tryCandidates recur key selectedMut constraintsMap rest cands r.lastError

/-- `_search`, with explicit fuel for the recursion depth (the Python
recursion carries no bound; any terminating Python run corresponds to
every sufficiently large fuel). A `SkilldockError` raised by
`_candidate_releases` is caught: it becomes `last_error` and the branch
answers `None`. -/
def search (repo : ReleaseRepository) :
    Nat → AList SkillRelease → AList (List Requirement) → List String → Option String →
    Except String SearchRes
  | 0, _, _, _, _ => .error "search fuel exhausted"
  | n + 1, selected, constraintsMap, pendingKeys, lastErr =>
    match revalidate constraintsMap (alKeys selected) selected (dedupFirst pendingKeys) with
    | .error e => .error e
    | .ok (selectedMut, pendingMut) =>
      match pendingMut with
      | [] => .ok ⟨some (selectedMut, constraintsMap), lastErr⟩
      | key :: rest =>
        match parseSkillRef key with
        | .error e => .error e
        | .ok ref =>
          match candidateReleases repo ref ((alGet constraintsMap key).getD []) with
          | .error e => .ok ⟨none, some e⟩
          | .ok candidates =>
            tryCandidates (search repo n) key selectedMut constraintsMap rest candidates lastErr

/-- The seeding loop of `resolve_dependency_graph` over
`sorted(direct_requirements.items())`. -/
def initConstraints :
    List (String × String) → AList (List Requirement) → List String →
    Except String (AList (List Requirement) × List String)
  | [], cons, pend => .ok (cons, pend)
  | (key, spec) :: items, cons, pend =>
    match parseSkillRef key with
    | .error e => .error e
    | .ok ref =>
      initConstraints items (alAppendAt cons ref.key ⟨normalizeRequirement (some spec), "direct"⟩)
        (if ref.key ∈ pend then pend else pend ++ [ref.key])

/-- `resolve_dependency_graph`; the direct-requirement dict is given as
its (insertion-ordered) item list. -/
def resolveDependencyGraph (fuel : Nat) (directRequirements : List (String × String))
    (repo : ReleaseRepository) :
    Except String (AList SkillRelease × AList (List Requirement)) :=
  match initConstraints (sortPairs directRequirements) [] [] with
  | .error e => .error e
  | .ok (constraints, pending) =>
    match search repo fuel [] constraints pending none with
    | .error e => .error e
    | .ok r =>
      match r.result with
      | some sol => .ok sol
      | none =>
        match r.lastError with
        | some e => .error ("Could not resolve dependency graph. Last error: " ++ e)
        | none => .error "Could not resolve dependency graph."

/-! ### Concrete repositories for examples and counterexamples -/

/-- A pure in-memory repository in the style of the project's `FakeRepo`
test double: `get_release` answers by comparing versions within the
listed releases, `download_archive` fails with the canonical message
when the release has no download URL. -/
def fakeRepo (releases : AList (List SkillRelease)) : ReleaseRepository where
  listReleases := fun ref => .ok ((alGet releases ref.key).getD [])
  getRelease := fun ref version =>
    .ok (((alGet releases ref.key).getD []).find? (fun rel => compareVersions rel.version version == 0))
  downloadArchive := fun rel =>
    if hasDownloadUrl rel then .ok ()
    else .error ("Release " ++ rel.ref.key ++ "@" ++ rel.version ++ " has no download URL.")

/-- Shorthand for a release with a (dummy) download URL. -/
def mkRel (ns slug version : String) (deps : List DependencySpec := [])
    (url : Option String := some "https://example.invalid/archive.zip") : SkillRelease :=
  { ref := ⟨ns, slug⟩, version := version, dependencies := deps, sha256 := none,
    download_url := url }

/-- The repository of `test_resolver_backtracks_for_compatible_graph`. -/
def backtrackRepo : ReleaseRepository :=
  fakeRepo
    [("acme/app",
      [mkRel "acme" "app" "2.0.0" [⟨⟨"core", "runtime"⟩, some "^2.0.0", none⟩],
       mkRel "acme" "app" "1.0.0" [⟨⟨"core", "runtime"⟩, some "^1.0.0", none⟩]]),
     ("tools/helper",
      [mkRel "tools" "helper" "1.0.0" [⟨⟨"core", "runtime"⟩, some "^1.0.0", none⟩]]),
     ("core/runtime",
      [mkRel "core" "runtime" "2.0.0", mkRel "core" "runtime" "1.5.0"])]

example :
    ((resolveDependencyGraph 20 [("acme/app", "latest"), ("tools/helper", "latest")]
        backtrackRepo).map
      (fun sol => ((alGet sol.1 "acme/app").map (·.version),
                   (alGet sol.1 "core/runtime").map (·.version),
                   (alGet sol.1 "tools/helper").map (·.version)))) =
    .ok (some "1.0.0", some "1.5.0", some "1.0.0") := by decide

/-- The repository of `test_resolver_raises_on_conflict` (a range
conflict with no compatible graph). -/
def rangeConflictRepo : ReleaseRepository :=
  fakeRepo
    [("acme/app",
      [mkRel "acme" "app" "2.0.0" [⟨⟨"core", "runtime"⟩, some "^2.0.0", none⟩]]),
     ("tools/helper",
      [mkRel "tools" "helper" "1.0.0" [⟨⟨"core", "runtime"⟩, some "^1.0.0", none⟩]]),
     ("core/runtime", [mkRel "core" "runtime" "2.0.0"])]

example :
    (resolveDependencyGraph 20 [("acme/app", "latest"), ("tools/helper", "latest")]
        rangeConflictRepo matches .error _) := by decide

/-! ## Comparator lemmas (claims C7, C8, C10) -/

theorem lexCmp_self : ∀ l : List Char, lexCmp l l = 0
  | [] => rfl
  | x :: xs => by
    simp only [lexCmp, Nat.lt_irrefl, if_false]
    exact lexCmp_self xs

theorem lexCmp_antisymm : ∀ a b : List Char, lexCmp a b = -(lexCmp b a)
  | [], [] => rfl
  | [], _ :: _ => rfl
  | _ :: _, [] => rfl
  | x :: xs, y :: ys => by
    simp only [lexCmp]
    by_cases h1 : x.toNat < y.toNat
    · rw [if_pos h1, if_neg (Nat.lt_asymm h1), if_pos h1]
    · by_cases h2 : y.toNat < x.toNat
      · rw [if_neg h1, if_pos h2, if_pos h2]; decide
      · rw [if_neg h1, if_neg h2, if_neg h2, if_neg h1, lexCmp_antisymm xs ys]

theorem listCmpNat_self : ∀ l : List Nat, listCmpNat l l = 0
  | [] => rfl
  | x :: xs => by
    simp only [listCmpNat, Nat.lt_irrefl, if_false]
    exact listCmpNat_self xs

theorem listCmpNat_antisymm : ∀ a b : List Nat, listCmpNat a b = -(listCmpNat b a)
  | [], [] => rfl
  | [], _ :: _ => rfl
  | _ :: _, [] => rfl
  | x :: xs, y :: ys => by
    simp only [listCmpNat]
    by_cases h1 : x < y
    · rw [if_pos h1, if_neg (Nat.lt_asymm h1), if_pos h1]
    · by_cases h2 : y < x
      · rw [if_neg h1, if_pos h2, if_pos h2]; decide
      · rw [if_neg h1, if_neg h2, if_neg h2, if_neg h1, listCmpNat_antisymm xs ys]

theorem preCmp_self : ∀ l : List (List Char), preCmp l l = 0
  | [] => rfl
  | x :: xs => by
    by_cases hd : pyIsDigit x
    · simp only [preCmp, hd, Bool.and_self, if_pos, Nat.lt_irrefl, if_false]
      exact preCmp_self xs
    · simp only [preCmp, hd, Bool.false_and, Bool.and_false, Bool.false_eq_true, if_false,
        lexCmp_self]
      simpa using preCmp_self xs

theorem preCmp_antisymm : ∀ a b : List (List Char), preCmp a b = -(preCmp b a)
  | [], [] => rfl
  | [], _ :: _ => rfl
  | _ :: _, [] => rfl
  | x :: xs, y :: ys => by
    unfold preCmp
    cases hdx : pyIsDigit x <;> cases hdy : pyIsDigit y
    · simp only [Bool.false_and, Bool.and_false, Bool.not_false, Bool.true_and,
        Bool.false_eq_true, if_false]
      have h := lexCmp_antisymm x y
      by_cases h1 : lexCmp x y = -1
      · rw [if_pos h1, if_neg (by omega), if_pos (by omega)]
      · by_cases h2 : lexCmp x y = 1
        · rw [if_neg h1, if_pos h2, if_pos (by omega)]; rfl
        · rw [if_neg h1, if_neg h2, if_neg (by omega), if_neg (by omega),
            preCmp_antisymm xs ys]
    · simp
    · simp
    · simp only [Bool.and_self, if_true]
      by_cases h1 : natOfDigits x < natOfDigits y
      · rw [if_pos h1, if_neg (Nat.lt_asymm h1), if_pos h1]
      · by_cases h2 : natOfDigits y < natOfDigits x
        · rw [if_neg h1, if_pos h2, if_pos h2]; rfl
        · rw [if_neg h1, if_neg h2, if_neg h2, if_neg h1, preCmp_antisymm xs ys]

theorem compareVersionsL_self : ∀ l : List Char, compareVersionsL l l = 0 := by
  intro l
  unfold compareVersionsL
  match h : splitVersionL l with
  | none => simp [lexCmp_self]
  | some (m, p) =>
    simp only [listCmpNat_self m]
    match p with
    | none => rfl
    | some la => simp [preCmp_self la]

theorem compareVersionsL_antisymm : ∀ a b : List Char, compareVersionsL a b = -(compareVersionsL b a) := by
  intro a b
  unfold compareVersionsL
  match ha : splitVersionL a, hb : splitVersionL b with
  | none, none => simp [lexCmp_antisymm a b]
  | none, some q => simp [lexCmp_antisymm a b]
  | some p, none => simp [lexCmp_antisymm a b]
  | some (ma, pa), some (mb, pb) =>
    simp only []
    have h := listCmpNat_antisymm ma mb
    by_cases h1 : listCmpNat ma mb = -1
    · rw [if_pos h1, if_neg (by omega), if_pos (by omega)]
    · by_cases h2 : listCmpNat ma mb = 1
      · rw [if_neg h1, if_pos h2, if_pos (by omega)]; decide
      · rw [if_neg h1, if_neg h2, if_neg (by omega), if_neg (by omega)]
        match pa, pb with
        | none, none => rfl
        | none, some _ => rfl
        | some _, none => rfl
        | some la, some lb => exact preCmp_antisymm la lb

/-- **C10.** `compare_versions` is total over arbitrary strings (the
only exception, the `ValueError` from `_split_version`, is caught and
turned into the lexical fallback — in the embedding `compareVersions`
is a total function into `Int` by construction), reflexive-zero, and
antisymmetric: `compare_versions(a, b) == -compare_versions(b, a)`. -/
theorem c10_comparator_total_reflexive_antisymmetric (a b : String) :
    compareVersions a a = 0 ∧ compareVersions a b = -(compareVersions b a) :=
  ⟨compareVersionsL_self a.data, compareVersionsL_antisymm a.data b.data⟩

/-- **C8.** When either input fails to parse under the version grammar
(`_split_version` raises `ValueError`, modelled by `splitVersionL _ = none`),
`compare_versions` does not raise and returns plain lexical string
comparison of the two inputs. -/
theorem c8_unparseable_falls_back_to_lexical (a b : String)
    (h : splitVersionL a.data = none ∨ splitVersionL b.data = none) :
    compareVersions a b = lexCmp a.data b.data := by
  unfold compareVersions compareVersionsL
  rcases h with h | h
  · rw [h]
  · rw [h]
    match splitVersionL a.data with
    | none => rfl
    | some _ => rfl

/-- Witness for C8 at `a = "abc"` (unparseable), `b = "1.0"`. -/
theorem c8_witness :
    splitVersionL ("abc").data = none ∧ compareVersions "abc" "1.0" = lexCmp ("abc").data ("1.0").data :=
  ⟨by decide, c8_unparseable_falls_back_to_lexical "abc" "1.0" (Or.inl (by decide))⟩

/-! ## Claim C7: comparison semantics after the numeric cores tie -/

/-- Modelled from the spec's words (§4.1): prerelease identifiers are
compared pairwise — numeric identifiers numerically, non-numeric ones
lexically, a numeric identifier is less than a non-numeric one at the
same position — and a prerelease that is a strict prefix of the other
is less. Stated separately from `preCmp` (which embeds the source loop)
so the two can be compared. -/
def specPreCmp : List (List Char) → List (List Char) → Int
  | [], [] => 0
  | [], _ :: _ => -1
  | _ :: _, [] => 1
  | x :: xs, y :: ys =>
    if pyIsDigit x then
      if pyIsDigit y then
        if natOfDigits x < natOfDigits y then -1
        else if natOfDigits x > natOfDigits y then 1
        else specPreCmp xs ys
      else -1
    else
      if pyIsDigit y then 1
      else
        if lexCmp x y = -1 then -1
        else if lexCmp x y = 1 then 1
        else specPreCmp xs ys

theorem preCmp_eq_specPreCmp : ∀ a b : List (List Char), preCmp a b = specPreCmp a b
  | [], [] => rfl
  | [], _ :: _ => rfl
  | _ :: _, [] => rfl
  | x :: xs, y :: ys => by
    unfold preCmp specPreCmp
    cases hdx : pyIsDigit x <;> cases hdy : pyIsDigit y <;>
      simp [preCmp_eq_specPreCmp xs ys, gt_iff_lt]

/-- **C7.** When both inputs parse and the padded numeric cores are
equal: a version with no prerelease compares greater (result `1`) than
one with a prerelease, and when both have prereleases the result is the
pairwise identifier comparison described by the spec (`specPreCmp`:
numeric vs numeric numerically, non-numeric lexically, numeric < non-
numeric at the same position, strict prefix less); plus the three
concrete facts `compare("1.2.3","1.2.3") == 0`,
`compare("2.0.0","1.9.9") > 0`, `compare("1.0.0","1.0.0-rc1") > 0`. -/
theorem c7_equal_core_prerelease_semantics :
    (∀ (a b : String) (ma mb : List Nat) (lb : List (List Char)),
        splitVersionL a.data = some (ma, none) →
        splitVersionL b.data = some (mb, some lb) →
        ma = mb → compareVersions a b = 1)
    ∧ (∀ (a b : String) (ma mb : List Nat) (la lb : List (List Char)),
        splitVersionL a.data = some (ma, some la) →
        splitVersionL b.data = some (mb, some lb) →
        ma = mb → compareVersions a b = specPreCmp la lb)
    ∧ compareVersions "1.2.3" "1.2.3" = 0
    ∧ compareVersions "2.0.0" "1.9.9" > 0
    ∧ compareVersions "1.0.0" "1.0.0-rc1" > 0 := by
  refine ⟨?_, ?_, by decide, by decide, by decide⟩
  · intro a b ma mb lb ha hb hm
    subst hm
    unfold compareVersions compareVersionsL
    rw [ha, hb]
    simp [listCmpNat_self]
  · intro a b ma mb la lb ha hb hm
    subst hm
    unfold compareVersions compareVersionsL
    rw [ha, hb]
    simp [listCmpNat_self, preCmp_eq_specPreCmp]

/-- Witness for C7: the release/prerelease rule at
`("1.0.0", "1.0.0-rc1")` and the pairwise rule at
`("1.2.3-alpha.1", "1.2.3-alpha.2")`. -/
theorem c7_witness :
    compareVersions "1.0.0" "1.0.0-rc1" = 1 ∧
    compareVersions "1.2.3-alpha.1" "1.2.3-alpha.2" =
      specPreCmp [("alpha").data, ("1").data] [("alpha").data, ("2").data] :=
  ⟨c7_equal_core_prerelease_semantics.1 "1.0.0" "1.0.0-rc1" [1, 0, 0] [1, 0, 0]
      [("rc1").data] (by decide) (by decide) rfl,
    c7_equal_core_prerelease_semantics.2.1 "1.2.3-alpha.1" "1.2.3-alpha.2" [1, 2, 3] [1, 2, 3]
      [("alpha").data, ("1").data] [("alpha").data, ("2").data] (by decide) (by decide) rfl⟩

/-! ## Claim C9: the exact-pin fast path agrees with the matcher -/

theorem except_bind_ok {α β : Type} (a : α) (f : α → Except String β) :
    (Except.ok (ε := String) a >>= f) = f a := rfl

theorem except_bind_error {α β : Type} (e : String) (f : α → Except String β) :
    ((Except.error e : Except String α) >>= f) = .error e := rfl

/-- Pure core of C9: on any token list where `_extract_exact_version`'s
token analysis finds an exact pin, the `version_satisfies` token loop
reduces to a single version-equality test. -/
theorem extractFromTokens_satisfiesTok (tokens : List (List Char)) (rhs v : List Char)
    (h : extractFromTokens tokens = some rhs) :
    versionSatisfiesTok v tokens = (compareVersionsL v rhs == 0) := by
  match tokens with
  | [] => exact absurd h (by simp [extractFromTokens])
  | _ :: _ :: _ => exact absurd h (by simp [extractFromTokens])
  | [tok] =>
    simp only [extractFromTokens] at h
    split_ifs at h with h1 h2
    match hm : matchComparator (pyStrip tok) with
    | none => rw [hm] at h; exact Option.noConfusion h
    | some (opRaw, r) =>
      rw [hm] at h
      have h' : (if normOp opRaw = ['='] ∨ normOp opRaw = ['=', '='] then
          some r else none) = some rhs := h
      split_ifs at h' with h3
      have hr : r = rhs := Option.some.inj h'
      subst hr
      unfold versionSatisfiesTok
      rw [if_neg (fun hc => h1 (Or.inr hc)), hm]
      rcases h3 with h3 | h3 <;>
        by_cases hc : compareVersionsL v r = 0 <;>
          simp [h3, hc, versionSatisfiesTok]

/-- Core of C9 on char lists. -/
theorem extractExact_satisfies (spec rhs v : List Char)
    (h : extractExactVersionL spec = .ok (some rhs)) :
    versionSatisfiesL v spec = .ok (compareVersionsL v rhs == 0) := by
  unfold extractExactVersionL at h
  unfold versionSatisfiesL
  cases hs : splitSpecifier spec with
  | error e =>
    rw [hs] at h
    exact Except.noConfusion h
  | ok tokens =>
    rw [hs] at h
    have h2 : extractFromTokens tokens = some rhs := Except.ok.inj h
    exact congrArg Except.ok (extractFromTokens_satisfiesTok tokens rhs v h2)

/-- **C9.** Whenever `_extract_exact_version` returns a version `e` for
a specifier `s`, `version_satisfies(v, s)` holds exactly when
`compare_versions(v, e) == 0`: the exact-pin fast path agrees with the
general matcher. -/
theorem c9_exact_pin_agrees_with_matcher (s e v : String)
    (h : extractExactVersion s = .ok (some e)) :
    versionSatisfies v s = .ok (compareVersions v e == 0) := by
  unfold extractExactVersion at h
  cases hx : extractExactVersionL s.data with
  | error e2 => rw [hx] at h; exact Except.noConfusion h
  | ok o =>
    rw [hx] at h
    have h2 : o.map String.mk = some e := Except.ok.inj h
    match o, h2 with
    | some rhs, h2 =>
      have he : String.mk rhs = e := Option.some.inj h2
      subst he
      have hsat := extractExact_satisfies s.data rhs v.data hx
      unfold versionSatisfies compareVersions
      rw [hsat]

/-- Witness for C9 at `s = "=1.2.3"`, `e = "1.2.3"`, `v = "1.2.4"`. -/
theorem c9_witness :
    extractExactVersion "=1.2.3" = .ok (some "1.2.3") ∧
    versionSatisfies "1.2.4" "=1.2.3" = .ok (compareVersions "1.2.4" "1.2.3" == 0) :=
  ⟨by decide, c9_exact_pin_agrees_with_matcher "=1.2.3" "1.2.3" "1.2.4" (by decide)⟩

/-! ## Claim C1: exact-pin conflicts -/

/-- The repository for the C1 counterexample: `a/y@2.0.0` pins
`a/x@2.0.0` while the direct requirement pins `a/x@1.0.0`; `a/y@1.0.0`
pins `a/x@1.0.0` and is compatible. -/
def c1Repo : ReleaseRepository :=
  fakeRepo
    [("a/x", [mkRel "a" "x" "2.0.0", mkRel "a" "x" "1.0.0"]),
     ("a/y", [mkRel "a" "y" "2.0.0" [⟨⟨"a", "x"⟩, none, some "2.0.0"⟩],
              mkRel "a" "y" "1.0.0" [⟨⟨"a", "x"⟩, none, some "1.0.0"⟩]])]

/-- Direct requirements for the C1 counterexample. -/
def c1Direct : List (String × String) := [("a/x", "=1.0.0"), ("a/y", "latest")]

/-- The conflict message raised for `a/x` in the `a/y@2.0.0` branch. -/
def c1ConflictMsg : String :=
  "Dependency conflict for a/x: multiple exact versions requested (1.0.0, 2.0.0). " ++
    "Constraints: =1.0.0 (from direct), =2.0.0 (from a/y@2.0.0)"

/-- **C1, counterexample.** The claim says a conflict between two
Requirements pinning different exact versions is fatal — never retried
or backtracked around. On this concrete input the search *does* raise
the `ConflictError` for `a/x` (conjuncts 1 and 2: the constraint list
`[=1.0.0 (direct), =2.0.0 (from a/y@2.0.0)]` arises and
`_candidate_releases` raises on it; the raised error is recorded as
`last_error` of the search), yet the search still returns a solution and
`resolve_dependency_graph` succeeds (conjuncts 3 and 4): the error is
caught in `_search`, the next candidate `a/y@1.0.0` is tried, and the
conflict is backtracked around rather than being fatal. -/
theorem c1_counterexample :
    candidateReleases c1Repo ⟨"a", "x"⟩
        [⟨"=1.0.0", "direct"⟩, ⟨"=2.0.0", "a/y@2.0.0"⟩] = .error c1ConflictMsg
    ∧ (search c1Repo 20 []
          [("a/x", [⟨"=1.0.0", "direct"⟩]), ("a/y", [⟨"latest", "direct"⟩])]
          ["a/x", "a/y"] none).map (fun r => (r.result.isSome, r.lastError)) =
        .ok (true, some c1ConflictMsg)
    ∧ initConstraints (sortPairs c1Direct) [] [] =
        .ok ([("a/x", [⟨"=1.0.0", "direct"⟩]), ("a/y", [⟨"latest", "direct"⟩])],
          ["a/x", "a/y"])
    ∧ (resolveDependencyGraph 20 c1Direct c1Repo).map
        (fun sol => ((alGet sol.1 "a/x").map (·.version), (alGet sol.1 "a/y").map (·.version))) =
      .ok (some "1.0.0", some "1.0.0") := by
  refine ⟨by decide, by decide, by decide, by decide⟩

/-- **C1, amended.** What does hold: whenever the requirement list for a
key contains more than one distinct exact pin (`extractExacts` finds
`> 1` distinct versions), `_candidate_releases` raises `ConflictError`
naming them and never returns a candidate list — so the resolver never
selects a release for a key whose live constraints pin two different
exact versions. The error is, however, caught by `_search` (becoming
`last_error`) and other branches are still tried; it is fatal only when
every alternative branch also fails. -/
theorem c1_amended_conflict_always_raised (repo : ReleaseRepository) (ref : SkillRef)
    (reqs : List Requirement) (exacts : List String)
    (hex : extractExacts reqs = .ok exacts) (hlen : exacts.length > 1) :
    candidateReleases repo ref reqs = .error (conflictMsg ref exacts reqs) := by
  unfold candidateReleases
  rw [hex]
  dsimp only
  rw [if_pos hlen]

/-- Witness for the amended C1 at the conflicting constraint list of the
counterexample. -/
theorem c1_amended_witness :
    extractExacts [⟨"=1.0.0", "direct"⟩, ⟨"=2.0.0", "a/y@2.0.0"⟩] = .ok ["1.0.0", "2.0.0"]
    ∧ candidateReleases c1Repo ⟨"a", "x"⟩ [⟨"=1.0.0", "direct"⟩, ⟨"=2.0.0", "a/y@2.0.0"⟩] =
        .error (conflictMsg ⟨"a", "x"⟩ ["1.0.0", "2.0.0"]
          [⟨"=1.0.0", "direct"⟩, ⟨"=2.0.0", "a/y@2.0.0"⟩]) :=
  ⟨by decide,
    c1_amended_conflict_always_raised c1Repo ⟨"a", "x"⟩
      [⟨"=1.0.0", "direct"⟩, ⟨"=2.0.0", "a/y@2.0.0"⟩] ["1.0.0", "2.0.0"]
      (by decide) (by decide)⟩

/-! ## Claim C3: `_safe_extract_zip`

POSIX paths are modelled as segment lists (an absolute path
`/a/b` is `["a", "b"]`); `Path.resolve()` on a not-yet-existing path is
lexical normalisation of `.` and `..` segments; the containment test
`str(target).startswith(str(base) + os.sep) or target == base` is the
segment-prefix test on the resolved paths. Filesystem writes are
recorded as an event trace. -/

/-- A filesystem side effect performed by `_safe_extract_zip`. -/
inductive FsEvent where
  | mkdirTree : List String → FsEvent  -- `mkdir(parents=True, exist_ok=True)`
  | writeFile : List String → FsEvent  -- `target.open("wb")` + `copyfileobj`
deriving DecidableEq, Repr

/-- `Path.resolve()`: fold segments, dropping `""`/`.` and letting `..`
remove the last component (at the root it stays at the root). -/
def resolveSegs : List String → List String → List String
  | acc, [] => acc
  | acc, seg :: rest =>
    if seg = "" ∨ seg = "." then resolveSegs acc rest
    else if seg = ".." then resolveSegs acc.dropLast rest
    else resolveSegs (acc ++ [seg]) rest

/-- `(dest / name).resolve()` for a non-absolute entry name. -/
def entryTarget (dest : List String) (name : String) : List String :=
  resolveSegs dest ((splitOnCh '/' name.data).map String.mk)

/-- `ZipInfo.is_dir()`: the stored name ends with a slash. -/
def isDirEntry (name : String) : Bool :=
  name.data.getLast? = some '/' 

/-- The filesystem events performed for one accepted entry. -/
def entryEvents (dest : List String) (name : String) : List FsEvent :=
  if isDirEntry name then [.mkdirTree (entryTarget dest name)]
  else [.mkdirTree (entryTarget dest name).dropLast, .writeFile (entryTarget dest name)]

/-- The rejection message for an unsafe entry. -/
def badEntryMsg (name : String) : String :=
  if name.data.take 1 = ['/'] then "Archive contains an absolute path entry: '" ++ name ++ "'"
  else "Archive contains an invalid path entry: '" ++ name ++ "'"

/-- An entry the safety check rejects: non-empty and either absolute or
resolving outside the extraction root (the decision chain of the entry
loop). -/
def entryBad (dest : List String) (name : String) : Bool :=
  if name = "" then false
  else if name.data.take 1 = ['/'] then true
  else if !(List.isPrefixOf dest (entryTarget dest name)) then true
  else false

/-- The entry loop of `_safe_extract_zip`, accumulating the event
trace; returns the events performed and the error, if any. -/
def extractGo (dest : List String) : List String → List FsEvent → List FsEvent × Option String
  | [], acc => (acc, none)
  | name :: rest, acc =>
    if name = "" then extractGo dest rest acc  -- `if not name: continue`
    else if name.data.take 1 = ['/'] then
      (acc, some ("Archive contains an absolute path entry: '" ++ name ++ "'"))
    else if !(List.isPrefixOf dest (entryTarget dest name)) then
      (acc, some ("Archive contains an invalid path entry: '" ++ name ++ "'"))
    else extractGo dest rest (acc ++ entryEvents dest name)

/-- `_safe_extract_zip` over the archive's entry names: first
`dest.mkdir(parents=True, exist_ok=True)`, then the entry loop. -/
def safeExtractZip (dest : List String) (names : List String) : List FsEvent × Option String :=
  extractGo dest names [FsEvent.mkdirTree dest]

/-- The events of the accepted entries of a prefix. -/
def goodEvents (dest : List String) : List String → List FsEvent
  | [] => []
  | n :: rest =>
    if n = "" then goodEvents dest rest
    else entryEvents dest n ++ goodEvents dest rest

theorem extractGo_all_good (dest : List String) :
    ∀ (names : List String) (acc : List FsEvent),
      (∀ n ∈ names, entryBad dest n = false) →
      extractGo dest names acc = (acc ++ goodEvents dest names, none)
  | [], acc, _ => by simp [extractGo, goodEvents]
  | name :: rest, acc, h => by
    have hname := h name (by simp)
    have hrest : ∀ n ∈ rest, entryBad dest n = false := fun n hn => h n (by simp [hn])
    unfold extractGo goodEvents
    by_cases he : name = ""
    · rw [if_pos he, if_pos he, extractGo_all_good dest rest acc hrest]
    · unfold entryBad at hname
      rw [if_neg he] at hname
      by_cases habs : name.data.take 1 = ['/']
      · rw [if_pos habs] at hname
        exact Bool.noConfusion hname
      · rw [if_neg habs] at hname
        by_cases hpf : !(List.isPrefixOf dest (entryTarget dest name))
        · rw [if_pos hpf] at hname
          exact Bool.noConfusion hname
        · rw [if_neg he, if_neg habs, if_neg hpf, if_neg he,
            extractGo_all_good dest rest (acc ++ entryEvents dest name) hrest,
            List.append_assoc]

theorem extractGo_stops_at_bad (dest : List String) :
    ∀ (pre : List String) (bad : String) (post : List String) (acc : List FsEvent),
      (∀ n ∈ pre, entryBad dest n = false) →
      entryBad dest bad = true →
      extractGo dest (pre ++ bad :: post) acc =
        (acc ++ goodEvents dest pre, some (badEntryMsg bad))
  | [], bad, post, acc, _, hbad => by
    have hne : ¬bad = "" := by
      intro hc; rw [hc] at hbad; simp [entryBad] at hbad
    unfold entryBad at hbad
    rw [if_neg hne] at hbad
    rw [List.nil_append]
    unfold extractGo
    rw [if_neg hne]
    by_cases habs : bad.data.take 1 = ['/']
    · rw [if_pos habs]
      simp [goodEvents, badEntryMsg, habs]
    · rw [if_neg habs] at hbad ⊢
      by_cases hpf : !(List.isPrefixOf dest (entryTarget dest bad))
      · rw [if_pos hpf]
        simp [goodEvents, badEntryMsg, habs]
      · rw [if_neg hpf] at hbad
        exact Bool.noConfusion hbad
  | name :: pre, bad, post, acc, h, hbad => by
    have hname := h name (by simp)
    have hpre : ∀ n ∈ pre, entryBad dest n = false := fun n hn => h n (by simp [hn])
    rw [List.cons_append]
    unfold extractGo goodEvents
    by_cases he : name = ""
    · rw [if_pos he, if_pos he, extractGo_stops_at_bad dest pre bad post acc hpre hbad]
    · unfold entryBad at hname
      rw [if_neg he] at hname
      by_cases habs : name.data.take 1 = ['/']
      · rw [if_pos habs] at hname
        exact Bool.noConfusion hname
      · rw [if_neg habs] at hname
        by_cases hpf : !(List.isPrefixOf dest (entryTarget dest name))
        · rw [if_pos hpf] at hname
          exact Bool.noConfusion hname
        · rw [if_neg he, if_neg habs, if_neg hpf, if_neg he,
            extractGo_stops_at_bad dest pre bad post (acc ++ entryEvents dest name) hpre hbad,
            List.append_assoc]

/-- First offending element of a list, by decidable predicate. -/
theorem exists_first_bad (p : String → Bool) :
    ∀ names : List String, (∃ n, n ∈ names ∧ p n = true) →
      ∃ pre bad post, names = pre ++ bad :: post ∧ (∀ n ∈ pre, p n = false) ∧ p bad = true
  | [], h => absurd h (by simp)
  | x :: xs, h => by
    by_cases hx : p x = true
    · exact ⟨[], x, xs, rfl, by simp, hx⟩
    · have hxs : ∃ n, n ∈ xs ∧ p n = true := by
        rcases h with ⟨n, hn, hp⟩
        rcases List.mem_cons.mp hn with rfl | hn
        · exact absurd hp hx
        · exact ⟨n, hn, hp⟩
      rcases exists_first_bad p xs hxs with ⟨pre, bad, post, heq, hpre, hbad⟩
      exact ⟨x :: pre, bad, post, by rw [heq, List.cons_append], by
        intro n hn
        rcases List.mem_cons.mp hn with rfl | hn
        · exact Bool.eq_false_iff.mpr hx
        · exact hpre n hn, hbad⟩

/-- **C3, counterexample.** The claim says an entry that resolves
outside the extraction root is rejected *before any file of the archive
is written — zero filesystem side effects*. For the archive
`["a.txt", "../evil.txt"]` extracted to `/tmp/unpacked`, the traversal
entry is rejected (first conjunct), but by then `a.txt` has already
been written inside the root (second conjunct): the check runs per
entry, interleaved with the writes, so an aborting extraction is not
free of side effects. -/
theorem c3_counterexample :
    (safeExtractZip ["tmp", "unpacked"] ["a.txt", "../evil.txt"]).2 =
      some "Archive contains an invalid path entry: '../evil.txt'"
    ∧ FsEvent.writeFile ["tmp", "unpacked", "a.txt"]
        ∈ (safeExtractZip ["tmp", "unpacked"] ["a.txt", "../evil.txt"]).1 := by
  refine ⟨by decide, by decide⟩

/-- **C3, amended.** Every entry whose path is absolute or resolves
outside the extraction root is rejected and extraction aborts at the
*first* such entry: extraction succeeds iff no entry is unsafe, and on
abort the filesystem events performed are exactly the initial
`mkdir` of the root plus the events of the safe entries *preceding* the
first unsafe one — nothing is written for the rejected entry or any
later entry, but earlier entries have already been extracted. -/
theorem c3_amended_reject_at_first_bad (dest : List String) (names : List String) :
    ((safeExtractZip dest names).2 = none ↔ ∀ n ∈ names, entryBad dest n = false)
    ∧ (∀ pre bad post, names = pre ++ bad :: post →
        (∀ n ∈ pre, entryBad dest n = false) → entryBad dest bad = true →
        safeExtractZip dest names =
          (FsEvent.mkdirTree dest :: goodEvents dest pre, some (badEntryMsg bad))) := by
  constructor
  · constructor
    · intro hnone
      by_contra hc
      push_neg at hc
      rcases hc with ⟨n, hn, hp⟩
      have hbadn : entryBad dest n = true := by
        cases hq : entryBad dest n
        · exact absurd hq hp
        · rfl
      rcases exists_first_bad (entryBad dest) names ⟨n, hn, hbadn⟩ with
        ⟨pre, bad, post, heq, hpre, hbad⟩
      rw [heq] at hnone
      unfold safeExtractZip at hnone
      rw [extractGo_stops_at_bad dest pre bad post _ hpre hbad] at hnone
      exact Option.noConfusion hnone
    · intro hgood
      unfold safeExtractZip
      rw [extractGo_all_good dest names _ hgood]
  · intro pre bad post heq hpre hbad
    rw [heq]
    unfold safeExtractZip
    rw [extractGo_stops_at_bad dest pre bad post _ hpre hbad]
    rfl

/-- Witness for the amended C3 at a concrete traversal archive. -/
theorem c3_amended_witness :
    entryBad ["root"] "../evil.txt" = true ∧
    safeExtractZip ["root"] ["a.txt", "../evil.txt"] =
      (FsEvent.mkdirTree ["root"] :: goodEvents ["root"] ["a.txt"],
        some (badEntryMsg "../evil.txt")) :=
  ⟨by decide,
    (c3_amended_reject_at_first_bad ["root"] ["a.txt", "../evil.txt"]).2
      ["a.txt"] "../evil.txt" [] rfl (by decide) (by decide)⟩

/-! ## Claim C4: `_install_archive` atomic swap and rollback

Abstract state of the two paths `_install_archive` mutates: the
destination directory and its `.skilldock-backup` sibling, each either
absent or holding some directory contents (an opaque tag). Extraction
happens in a `TemporaryDirectory` that is always cleaned up and is not
part of the state. Exactly one step may fail (a single injected
fault). -/

/-- Contents of the destination and backup paths. -/
structure InstallPaths where
  dest : Option String
  backup : Option String
deriving DecidableEq, Repr

/-- Which step of `_install_archive` raises, if any. -/
inductive InstallFault where
  | extractFail    -- `_safe_extract_zip` raises (unsafe entry)
  | skillMdMissing -- the `SKILL.md` root-marker check raises
  | moveFail       -- `shutil.move` raises, leaving a partial dest
  | metaFail       -- `_write_installed_meta` raises after the move
  | faultFree
deriving DecidableEq, Repr

/-- `_install_archive`: returns the final paths and whether the call
raised. `content` is the staged archive contents that `shutil.move`
installs. -/
def installArchive (fs : InstallPaths) (content : String) : InstallFault → InstallPaths × Bool
  | .extractFail => (fs, true)     -- raised before dest/backup are touched
  | .skillMdMissing => (fs, true)  -- raised before dest/backup are touched
  | fault =>
    let hadExisting := fs.dest.isSome
    -- if backup.exists(): rmtree(backup); if had_existing: dest.rename(backup)
    let st1 : InstallPaths := { dest := none, backup := if hadExisting then fs.dest else none }
    match fault with
    | .faultFree =>
      -- shutil.move succeeds, metadata written; finally: rmtree(backup)
      ({ dest := some content, backup := none }, false)
    | _ =>
      -- .moveFail / .metaFail: the try-block raised with dest possibly
      -- (partially) written; the except-handler deletes any partial dest,
      let st2 : InstallPaths := { st1 with dest := none }
      -- restores the backup when one was made,
      let st3 : InstallPaths :=
        if hadExisting ∧ st2.backup.isSome then { dest := st2.backup, backup := none } else st2
      -- re-raises; finally: rmtree(backup) (already gone if restored)
      ({ st3 with backup := none }, true)

/-- **C4.** `_install_archive` never leaves the destination
half-written: (1) it raises exactly when a step fails; (2) on any
failure the destination holds exactly what it held before the call —
any partial destination was deleted and the backup (when one existed)
was renamed back; (3) on success the destination holds the staged
contents and the backup has been deleted; (4) after any post-staging
failure the backup has been deleted as well (it was either restored or
removed by the `finally`). -/
theorem c4_install_rollback (fs : InstallPaths) (content : String) (fault : InstallFault) :
    ((installArchive fs content fault).2 = true ↔ fault ≠ .faultFree)
    ∧ ((installArchive fs content fault).2 = true →
        (installArchive fs content fault).1.dest = fs.dest)
    ∧ (fault = .faultFree →
        (installArchive fs content fault).1 = ⟨some content, none⟩)
    ∧ ((fault = .moveFail ∨ fault = .metaFail) →
        (installArchive fs content fault).1.backup = none) := by
  cases fault <;> cases hd : fs.dest <;>
    simp [installArchive, hd]

/-- Witness for C4: a failing move over an existing install restores
it, and a fault-free install swaps in the new contents. -/
theorem c4_witness :
    (installArchive ⟨some "old", none⟩ "new" .moveFail).1.dest = some "old"
    ∧ (installArchive ⟨some "old", none⟩ "new" .faultFree).1 = ⟨some "new", none⟩ :=
  ⟨(c4_install_rollback ⟨some "old", none⟩ "new" .moveFail).2.1 (by decide),
    (c4_install_rollback ⟨some "old", none⟩ "new" .faultFree).2.2.1 rfl⟩

/-! ## Claim C2: solution soundness of the resolver

Lemma stack: association-list facts, invariants preserved by
`revalidate` / `applyDeps` / `tryCandidates`, then induction on the
search fuel. -/

/-- Keys are pairwise distinct (every map built by the resolver from
`[]` through dict assignment/pop keeps this, as Python dicts do). -/
def NodupKeys {α : Type} (m : AList α) : Prop :=
  (alKeys m).Nodup

theorem alKeys_cons {α : Type} (p : String × α) (rest : AList α) :
    alKeys (p :: rest) = p.1 :: alKeys rest := rfl

theorem alGet_eq_none_of_not_mem {α : Type} :
    ∀ (m : AList α) (k : String), k ∉ alKeys m → alGet m k = none
  | [], _, _ => rfl
  | (k0, v0) :: rest, k, h => by
    have h1 : ¬k0 = k := fun hc => h (by simp [alKeys_cons, hc])
    unfold alGet
    rw [if_neg h1]
    exact alGet_eq_none_of_not_mem rest k (fun hc => h (by simp [alKeys_cons, hc]))

theorem mem_keys_of_alGet_some {α : Type} :
    ∀ {m : AList α} {k : String} {v : α}, alGet m k = some v → k ∈ alKeys m := by
  intro m k v h
  by_contra hc
  rw [alGet_eq_none_of_not_mem m k hc] at h
  exact Option.noConfusion h

theorem alPop_sublist {α : Type} : ∀ (m : AList α) (k : String), List.Sublist (alPop m k) m
  | [], _ => List.Sublist.refl []
  | (k0, v0) :: rest, k => by
    unfold alPop
    by_cases h : k0 = k
    · rw [if_pos h]
      exact List.sublist_cons_self _ _
    · rw [if_neg h]
      exact List.Sublist.cons₂ _ (alPop_sublist rest k)

theorem nodup_alPop {α : Type} {m : AList α} (k : String) (h : NodupKeys m) :
    NodupKeys (alPop m k) :=
  ((alPop_sublist m k).map Prod.fst).nodup h

theorem alGet_pop_self {α : Type} :
    ∀ (m : AList α) (k : String), NodupKeys m → alGet (alPop m k) k = none
  | [], _, _ => rfl
  | (k0, v0) :: rest, k, h => by
    unfold alPop
    by_cases hk : k0 = k
    · rw [if_pos hk]
      subst hk
      have h' : (k0 :: alKeys rest).Nodup := h
      exact alGet_eq_none_of_not_mem rest k0 (List.nodup_cons.mp h').1
    · rw [if_neg hk]
      unfold alGet
      rw [if_neg hk]
      exact alGet_pop_self rest k (List.nodup_cons.mp h).2

theorem alGet_pop_ne {α : Type} :
    ∀ (m : AList α) (kp k : String), kp ≠ k → alGet (alPop m kp) k = alGet m k
  | [], _, _, _ => rfl
  | (k0, v0) :: rest, kp, k, h => by
    unfold alPop
    by_cases hk : k0 = kp
    · rw [if_pos hk]
      have hne : ¬k0 = k := by rw [hk]; exact h
      simp [alGet, hne]
    · rw [if_neg hk]
      unfold alGet
      by_cases hk2 : k0 = k
      · rw [if_pos hk2, if_pos hk2]
      · rw [if_neg hk2, if_neg hk2]
        exact alGet_pop_ne rest kp k h

theorem alGet_set_self {α : Type} :
    ∀ (m : AList α) (k : String) (v : α), alGet (alSet m k v) k = some v
  | [], k, v => by simp [alSet, alGet]
  | (k0, v0) :: rest, k, v => by
    unfold alSet
    by_cases h : k0 = k
    · rw [if_pos h]
      simp [alGet]
    · rw [if_neg h]
      unfold alGet
      rw [if_neg h]
      exact alGet_set_self rest k v

theorem alGet_set_ne {α : Type} :
    ∀ (m : AList α) (ks k : String) (v : α), ks ≠ k → alGet (alSet m ks v) k = alGet m k
  | [], ks, k, v, h => by
    simp [alSet, alGet, h]
  | (k0, v0) :: rest, ks, k, v, h => by
    unfold alSet
    by_cases hk : k0 = ks
    · rw [if_pos hk]
      unfold alGet
      rw [if_neg h, if_neg (by rw [hk]; exact h)]
    · rw [if_neg hk]
      unfold alGet
      by_cases hk2 : k0 = k
      · rw [if_pos hk2, if_pos hk2]
      · rw [if_neg hk2, if_neg hk2]
        exact alGet_set_ne rest ks k v h

theorem mem_keys_alSet {α : Type} :
    ∀ (m : AList α) (k : String) (v : α) (a : String),
      a ∈ alKeys (alSet m k v) ↔ a ∈ alKeys m ∨ a = k
  | [], k, v, a => by simp [alSet, alKeys]
  | (k0, v0) :: rest, k, v, a => by
    unfold alSet
    by_cases h : k0 = k
    · rw [if_pos h]
      subst h
      simp [alKeys_cons]
      tauto
    · rw [if_neg h]
      rw [alKeys_cons, alKeys_cons]
      simp only [List.mem_cons, mem_keys_alSet rest k v a]
      tauto

theorem nodup_alSet {α : Type} :
    ∀ (m : AList α) (k : String) (v : α), NodupKeys m → NodupKeys (alSet m k v)
  | [], k, v, _ => by simp [alSet, NodupKeys, alKeys]
  | (k0, v0) :: rest, k, v, h => by
    unfold alSet
    rcases List.nodup_cons.mp h with ⟨h1, h2⟩
    by_cases hk : k0 = k
    · rw [if_pos hk]
      subst hk
      exact List.nodup_cons.mpr ⟨h1, h2⟩
    · rw [if_neg hk]
      refine List.nodup_cons.mpr ⟨?_, nodup_alSet rest k v h2⟩
      show k0 ∉ alKeys (alSet rest k v)
      rw [mem_keys_alSet]
      rintro (hc | hc)
      · exact h1 hc
      · exact hk hc

theorem mem_dedupFirstAux {α : Type} [DecidableEq α] :
    ∀ (l : List α) (seen : List α) (a : α),
      a ∈ dedupFirstAux seen l ↔ a ∈ l ∧ a ∉ seen
  | [], seen, a => by simp [dedupFirstAux]
  | x :: xs, seen, a => by
    unfold dedupFirstAux
    by_cases hx : x ∈ seen
    · rw [if_pos hx, mem_dedupFirstAux xs seen a]
      constructor
      · rintro ⟨h1, h2⟩; exact ⟨by simp [h1], h2⟩
      · rintro ⟨h1, h2⟩
        rcases List.mem_cons.mp h1 with rfl | h1
        · exact absurd hx h2
        · exact ⟨h1, h2⟩
    · rw [if_neg hx]
      simp only [List.mem_cons, mem_dedupFirstAux xs (x :: seen) a]
      by_cases ha : a = x
      · subst ha; simp [hx]
      · tauto

theorem mem_dedupFirst {α : Type} [DecidableEq α] (l : List α) (a : α) :
    a ∈ dedupFirst l ↔ a ∈ l := by
  simp [dedupFirst, mem_dedupFirstAux]

/-- All values of the selection map satisfy `Q`. -/
def SelVals (Q : SkillRelease → Prop) (sel : AList SkillRelease) : Prop :=
  ∀ k r, alGet sel k = some r → Q r

/-- A key is accounted for: selected or still pending. -/
def Covered (sel : AList SkillRelease) (pend : List String) (k : String) : Prop :=
  (alGet sel k).isSome ∨ k ∈ pend

/-- Every dependency of every selected release is accounted for. -/
def Closed (sel : AList SkillRelease) (pend : List String) : Prop :=
  ∀ k r, alGet sel k = some r → ∀ dep ∈ r.dependencies, Covered sel pend dep.ref.key

/-- Every key of `D` is accounted for. -/
def DCov (D : List String) (sel : AList SkillRelease) (pend : List String) : Prop :=
  ∀ k ∈ D, Covered sel pend k

theorem revalidate_shrink (cons : AList (List Requirement)) :
    ∀ (ks : List String) (sel : AList SkillRelease) (pend : List String)
      (selR : AList SkillRelease) (pendR : List String),
      NodupKeys sel →
      revalidate cons ks sel pend = .ok (selR, pendR) →
      ∀ k r, alGet selR k = some r → alGet sel k = some r
  | [], sel, pend, selR, pendR, _, h => by
    unfold revalidate at h
    have h2 : sel = selR := congrArg Prod.fst (Except.ok.inj h)
    subst h2
    exact fun k r hr => hr
  | k0 :: ks, sel, pend, selR, pendR, hnd, h => by
    unfold revalidate at h
    cases hg : alGet sel k0 with
    | none =>
      rw [hg] at h
      exact revalidate_shrink cons ks sel pend selR pendR hnd h
    | some rel =>
      rw [hg] at h
      dsimp only at h
      cases hv : versionSatisfiesAll rel.version ((alGet cons k0).getD []) with
      | error e => rw [hv] at h; exact Except.noConfusion h
      | ok b =>
        rw [hv] at h
        dsimp only at h
        by_cases hb : b
        · rw [if_pos hb] at h
          exact revalidate_shrink cons ks sel pend selR pendR hnd h
        · rw [if_neg hb] at h
          intro k r hr
          have hstep := revalidate_shrink cons ks (alPop sel k0)
            (if k0 ∈ pend then pend else k0 :: pend) selR pendR (nodup_alPop k0 hnd) h k r hr
          by_cases hk : k = k0
          · subst hk
            rw [alGet_pop_self sel k hnd] at hstep
            exact Option.noConfusion hstep
          · rw [alGet_pop_ne sel k0 k (fun hc => hk hc.symm)] at hstep
            exact hstep

theorem revalidate_nodup (cons : AList (List Requirement)) :
    ∀ (ks : List String) (sel : AList SkillRelease) (pend : List String)
      (selR : AList SkillRelease) (pendR : List String),
      NodupKeys sel →
      revalidate cons ks sel pend = .ok (selR, pendR) →
      NodupKeys selR
  | [], sel, pend, selR, pendR, hnd, h => by
    unfold revalidate at h
    have h2 : sel = selR := congrArg Prod.fst (Except.ok.inj h)
    subst h2
    exact hnd
  | k0 :: ks, sel, pend, selR, pendR, hnd, h => by
    unfold revalidate at h
    cases hg : alGet sel k0 with
    | none =>
      rw [hg] at h
      exact revalidate_nodup cons ks sel pend selR pendR hnd h
    | some rel =>
      rw [hg] at h
      dsimp only at h
      cases hv : versionSatisfiesAll rel.version ((alGet cons k0).getD []) with
      | error e => rw [hv] at h; exact Except.noConfusion h
      | ok b =>
        rw [hv] at h
        dsimp only at h
        by_cases hb : b
        · rw [if_pos hb] at h
          exact revalidate_nodup cons ks sel pend selR pendR hnd h
        · rw [if_neg hb] at h
          exact revalidate_nodup cons ks (alPop sel k0) _ selR pendR (nodup_alPop k0 hnd) h

theorem revalidate_covered (cons : AList (List Requirement)) :
    ∀ (ks : List String) (sel : AList SkillRelease) (pend : List String)
      (selR : AList SkillRelease) (pendR : List String),
      revalidate cons ks sel pend = .ok (selR, pendR) →
      ∀ k, Covered sel pend k → Covered selR pendR k
  | [], sel, pend, selR, pendR, h => by
    unfold revalidate at h
    have h2 : sel = selR := congrArg Prod.fst (Except.ok.inj h)
    have h3 : pend = pendR := congrArg Prod.snd (Except.ok.inj h)
    subst h2; subst h3
    exact fun k hk => hk
  | k0 :: ks, sel, pend, selR, pendR, h => by
    unfold revalidate at h
    cases hg : alGet sel k0 with
    | none =>
      rw [hg] at h
      exact revalidate_covered cons ks sel pend selR pendR h
    | some rel =>
      rw [hg] at h
      dsimp only at h
      cases hv : versionSatisfiesAll rel.version ((alGet cons k0).getD []) with
      | error e => rw [hv] at h; exact Except.noConfusion h
      | ok b =>
        rw [hv] at h
        dsimp only at h
        by_cases hb : b
        · rw [if_pos hb] at h
          exact revalidate_covered cons ks sel pend selR pendR h
        · rw [if_neg hb] at h
          intro k hk
          refine revalidate_covered cons ks (alPop sel k0) _ selR pendR h k ?_
          by_cases hkk : k = k0
          · subst hkk
            right
            by_cases hp : k ∈ pend
            · rw [if_pos hp]; exact hp
            · rw [if_neg hp]; exact List.mem_cons_self k pend
          · rcases hk with hk | hk
            · left
              rw [alGet_pop_ne sel k0 k (fun hc => hkk hc.symm)]
              exact hk
            · right
              by_cases hp : k0 ∈ pend
              · rw [if_pos hp]; exact hk
              · rw [if_neg hp]; exact List.mem_cons_of_mem k0 hk

theorem revalidate_sound (cons : AList (List Requirement)) :
    ∀ (ks : List String) (sel : AList SkillRelease) (pend : List String)
      (selR : AList SkillRelease) (pendR : List String),
      NodupKeys sel →
      revalidate cons ks sel pend = .ok (selR, pendR) →
      ∀ k r, alGet selR k = some r → k ∈ ks →
        versionSatisfiesAll r.version ((alGet cons k).getD []) = .ok true
  | [], sel, pend, selR, pendR, _, h => by
    intro k r _ hk
    exact absurd hk (by simp)
  | k0 :: ks, sel, pend, selR, pendR, hnd, h => by
    unfold revalidate at h
    cases hg : alGet sel k0 with
    | none =>
      rw [hg] at h
      intro k r hr hk
      rcases List.mem_cons.mp hk with rfl | hk
      · have := revalidate_shrink cons ks sel pend selR pendR hnd h k r hr
        rw [hg] at this
        exact Option.noConfusion this
      · exact revalidate_sound cons ks sel pend selR pendR hnd h k r hr hk
    | some rel =>
      rw [hg] at h
      dsimp only at h
      cases hv : versionSatisfiesAll rel.version ((alGet cons k0).getD []) with
      | error e => rw [hv] at h; exact Except.noConfusion h
      | ok b =>
        rw [hv] at h
        dsimp only at h
        by_cases hb : b
        · rw [if_pos hb] at h
          intro k r hr hk
          rcases List.mem_cons.mp hk with rfl | hk
          · have := revalidate_shrink cons ks sel pend selR pendR hnd h k r hr
            rw [hg] at this
            have hrel : rel = r := Option.some.inj this
            subst hrel
            rw [hv, hb]
          · exact revalidate_sound cons ks sel pend selR pendR hnd h k r hr hk
        · rw [if_neg hb] at h
          intro k r hr hk
          rcases List.mem_cons.mp hk with rfl | hk
          · have := revalidate_shrink cons ks (alPop sel k) _ selR pendR
              (nodup_alPop k hnd) h k r hr
            rw [alGet_pop_self sel k hnd] at this
            exact Option.noConfusion this
          · exact revalidate_sound cons ks (alPop sel k0) _ selR pendR
              (nodup_alPop k0 hnd) h k r hr hk

theorem depSelNext_cases (depKey : String) (consNext : AList (List Requirement))
    (sel selNext : AList SkillRelease)
    (h : depSelNext depKey consNext sel = .ok selNext) :
    selNext = sel ∨ selNext = alPop sel depKey := by
  unfold depSelNext at h
  cases hg : alGet sel depKey with
  | none =>
    rw [hg] at h
    exact Or.inl (Except.ok.inj h).symm
  | some selRel =>
    rw [hg] at h
    dsimp only at h
    cases hv : versionSatisfiesAll selRel.version ((alGet consNext depKey).getD []) with
    | error e => rw [hv] at h; exact Except.noConfusion h
    | ok b =>
      rw [hv] at h
      dsimp only at h
      by_cases hb : b
      · rw [if_pos hb] at h
        exact Or.inl (Except.ok.inj h).symm
      · rw [if_neg hb] at h
        exact Or.inr (Except.ok.inj h).symm

theorem applyDeps_sound (key candVersion : String) :
    ∀ (deps : List DependencySpec) (sel : AList SkillRelease)
      (cons : AList (List Requirement)) (pend : List String)
      (selR : AList SkillRelease) (consR : AList (List Requirement)) (pendR : List String),
      NodupKeys sel →
      applyDeps key candVersion deps sel cons pend = .ok (selR, consR, pendR) →
      NodupKeys selR
      ∧ (∀ k r, alGet selR k = some r → alGet sel k = some r)
      ∧ (∀ k, Covered sel pend k → Covered selR pendR k)
      ∧ (∀ dep ∈ deps, Covered selR pendR dep.ref.key)
  | [], sel, cons, pend, selR, consR, pendR, hnd, h => by
    unfold applyDeps at h
    have h1 : sel = selR := congrArg (fun p => p.1) (Except.ok.inj h)
    have h3 : pend = pendR := congrArg (fun p => p.2.2) (Except.ok.inj h)
    subst h1; subst h3
    exact ⟨hnd, fun k r hr => hr, fun k hk => hk, by simp⟩
  | dep :: deps, sel, cons, pend, selR, consR, pendR, hnd, h => by
    unfold applyDeps at h
    cases hd : depSelNext dep.ref.key (depConsNext key candVersion dep cons) sel with
    | error e => rw [hd] at h; exact Except.noConfusion h
    | ok selNext =>
      rw [hd] at h
      dsimp only at h
      -- the next selection map has nodup keys and only shrinks
      have hshrink : ∀ k r, alGet selNext k = some r → alGet sel k = some r := by
        rcases depSelNext_cases _ _ _ _ hd with hc | hc
        · subst hc; exact fun k r hr => hr
        · subst hc
          intro k r hr
          by_cases hk : k = dep.ref.key
          · subst hk
            rw [alGet_pop_self sel dep.ref.key hnd] at hr
            exact Option.noConfusion hr
          · rw [alGet_pop_ne sel dep.ref.key k (fun hc2 => hk hc2.symm)] at hr
            exact hr
      have hndN : NodupKeys selNext := by
        rcases depSelNext_cases _ _ _ _ hd with hc | hc
        · subst hc; exact hnd
        · subst hc; exact nodup_alPop _ hnd
      rcases applyDeps_sound key candVersion deps selNext _ _ selR consR pendR hndN h with
        ⟨ih1, ih2, ih3, ih4⟩
      -- the new pending list only grows
      have hsup : ∀ k, k ∈ pend →
          k ∈ (if alGet selNext dep.ref.key = none ∧ dep.ref.key ∉ pend
                then pend ++ [dep.ref.key] else pend) := by
        intro k hk
        by_cases hc : alGet selNext dep.ref.key = none ∧ dep.ref.key ∉ pend
        · rw [if_pos hc]; exact List.mem_append_left _ hk
        · rw [if_neg hc]; exact hk
      -- the dependency key itself is accounted for after this step
      have hdepcov : Covered selNext
          (if alGet selNext dep.ref.key = none ∧ dep.ref.key ∉ pend
            then pend ++ [dep.ref.key] else pend) dep.ref.key := by
        by_cases hsn : alGet selNext dep.ref.key = none
        · right
          by_cases hp : dep.ref.key ∈ pend
          · exact hsup _ hp
          · rw [if_pos ⟨hsn, hp⟩]
            exact List.mem_append_right _ (by simp)
        · exact Or.inl (Option.isSome_iff_ne_none.mpr hsn)
      -- one step preserves coverage
      have hstep : ∀ k, Covered sel pend k → Covered selNext
          (if alGet selNext dep.ref.key = none ∧ dep.ref.key ∉ pend
            then pend ++ [dep.ref.key] else pend) k := by
        intro k hk
        rcases hk with hk | hk
        · by_cases hkd : k = dep.ref.key
          · subst hkd; exact hdepcov
          · rcases depSelNext_cases _ _ _ _ hd with hc | hc
            · subst hc; exact Or.inl hk
            · subst hc
              left
              rw [alGet_pop_ne sel dep.ref.key k (fun hc2 => hkd hc2.symm)]
              exact hk
        · exact Or.inr (hsup k hk)
      refine ⟨ih1, fun k r hr => hshrink k r (ih2 k r hr), fun k hk => ih3 k (hstep k hk), ?_⟩
      intro d hdm
      rcases List.mem_cons.mp hdm with rfl | hdm
      · exact ih3 d.ref.key hdepcov
      · exact ih4 d hdm

theorem candidateReleasesSlow_urls (repo : ReleaseRepository) (ref : SkillRef)
    (reqs : List Requirement) (cands : List SkillRelease)
    (h : candidateReleasesSlow repo ref reqs = .ok cands) :
    ∀ c ∈ cands, hasDownloadUrl c = true := by
  unfold candidateReleasesSlow at h
  cases hl : repo.listReleases ref with
  | error e => rw [hl] at h; exact Except.noConfusion h
  | ok releases =>
    rw [hl] at h
    dsimp only at h
    cases hf : filterSatisfying reqs
        (sortDescBy (fun a b => compareVersions a.version b.version) releases) with
    | error e => rw [hf] at h; exact Except.noConfusion h
    | ok matched =>
      rw [hf] at h
      dsimp only at h
      cases hh : hydrateAll repo matched with
      | error e => rw [hh] at h; exact Except.noConfusion h
      | ok hydrated =>
        rw [hh] at h
        dsimp only at h
        split_ifs at h with h1 h2
        have hc : hydrated.filter hasDownloadUrl = cands := Except.ok.inj h
        subst hc
        intro c hc
        exact (List.mem_filter.mp hc).2

theorem candidateReleases_urls (repo : ReleaseRepository) (ref : SkillRef)
    (reqs : List Requirement) (cands : List SkillRelease)
    (h : candidateReleases repo ref reqs = .ok cands) :
    ∀ c ∈ cands, hasDownloadUrl c = true := by
  unfold candidateReleases at h
  cases he : extractExacts reqs with
  | error e => rw [he] at h; exact Except.noConfusion h
  | ok exacts =>
    rw [he] at h
    dsimp only at h
    split_ifs at h with h1
    obtain _ | ⟨version, _ | ⟨v2, restx⟩⟩ := exacts
    · dsimp only at h
      exact candidateReleasesSlow_urls repo ref reqs cands h
    · dsimp only at h
      cases hg : repo.getRelease ref version with
      | error e => rw [hg] at h; exact Except.noConfusion h
      | ok orel =>
        rw [hg] at h
        obtain _ | rel := orel
        · dsimp only at h
          exact candidateReleasesSlow_urls repo ref reqs cands h
        · dsimp only at h
          cases hv : versionSatisfiesAll rel.version reqs with
          | error e => rw [hv] at h; exact Except.noConfusion h
          | ok sat =>
            rw [hv] at h
            dsimp only at h
            by_cases hc : (sat && hasDownloadUrl rel) = true
            · rw [if_pos hc] at h
              have hcs : [rel] = cands := Except.ok.inj h
              subst hcs
              intro c hcm
              have hceq : c = rel := List.mem_singleton.mp hcm
              subst hceq
              have hc2 : sat = true ∧ hasDownloadUrl c = true := by simpa using hc
              exact hc2.2
            · rw [if_neg hc] at h
              exact candidateReleasesSlow_urls repo ref reqs cands h
    · dsimp only at h
      exact candidateReleasesSlow_urls repo ref reqs cands h

/-- What holds of any solved pair a successful `_search` returns, for
any predicate `Q` satisfied by every candidate list the repository can
produce. -/
def SearchGoal (Q : SkillRelease → Prop) (D : List String) (s2 : AList SkillRelease)
    (c2 : AList (List Requirement)) : Prop :=
  NodupKeys s2
  ∧ SelVals Q s2
  ∧ (∀ k rel, alGet s2 k = some rel →
      versionSatisfiesAll rel.version ((alGet c2 k).getD []) = .ok true)
  ∧ Closed s2 []
  ∧ DCov D s2 []

theorem tryCandidates_sound (repo : ReleaseRepository) (Q : SkillRelease → Prop)
    (D : List String) (n : Nat)
    (IH : ∀ sel cons pend le r s2 c2,
      NodupKeys sel → SelVals Q sel →
      Closed sel pend → DCov D sel pend →
      search repo n sel cons pend le = .ok r → r.result = some (s2, c2) →
      SearchGoal Q D s2 c2) :
    ∀ (cands : List SkillRelease) (key : String) (selM : AList SkillRelease)
      (cons : AList (List Requirement)) (rest : List String)
      (le : Option String) (r : SearchRes) (s2 : AList SkillRelease)
      (c2 : AList (List Requirement)),
      NodupKeys selM →
      SelVals Q selM →
      Closed selM (key :: rest) →
      DCov D selM (key :: rest) →
      (∀ c ∈ cands, Q c) →
      tryCandidates (search repo n) key selM cons rest cands le = .ok r →
      r.result = some (s2, c2) →
      SearchGoal Q D s2 c2
  | [], key, selM, cons, rest, le, r, s2, c2, _, _, _, _, _, htc, hres => by
    unfold tryCandidates at htc
    have hr : (⟨none, le⟩ : SearchRes) = r := Except.ok.inj htc
    rw [← hr] at hres
    exact Option.noConfusion hres
  | cand :: cands, key, selM, cons, rest, le, r, s2, c2, hnd, hurl, hclosed, hdcov,
      hcands, htc, hres => by
    unfold tryCandidates at htc
    cases ha : applyDeps key cand.version cand.dependencies (alSet selM key cand) cons rest with
    | error e => rw [ha] at htc; exact Except.noConfusion htc
    | ok trip =>
      obtain ⟨selN, consN, pendN⟩ := trip
      rw [ha] at htc
      dsimp only at htc
      cases hrec : search repo n selN consN pendN le with
      | error e => rw [hrec] at htc; exact Except.noConfusion htc
      | ok r0 =>
        rw [hrec] at htc
        dsimp only at htc
        cases hr0 : r0.result with
        | some p =>
          rw [hr0] at htc
          dsimp only at htc
          have hrr : r0 = r := Except.ok.inj htc
          subst hrr
          have hndSet : NodupKeys (alSet selM key cand) := nodup_alSet _ _ _ hnd
          rcases applyDeps_sound key cand.version cand.dependencies (alSet selM key cand)
            cons rest selN consN pendN hndSet ha with ⟨a1, a2, a3, a4⟩
          have htrans : ∀ k, Covered selM (key :: rest) k →
              Covered (alSet selM key cand) rest k := by
            intro k hk
            by_cases hkk : k = key
            · subst hkk
              exact Or.inl (by rw [alGet_set_self]; rfl)
            · rcases hk with hk | hk
              · exact Or.inl (by
                  rw [alGet_set_ne selM key k cand (fun hc => hkk hc.symm)]; exact hk)
              · rcases List.mem_cons.mp hk with rfl | hk
                · exact absurd rfl hkk
                · exact Or.inr hk
          have hurlN : SelVals Q selN := by
            intro k rl hr2
            have h2 := a2 k rl hr2
            by_cases hkk : k = key
            · subst hkk
              rw [alGet_set_self] at h2
              have hc : cand = rl := Option.some.inj h2
              subst hc
              exact hcands cand (by simp)
            · rw [alGet_set_ne selM key k cand (fun hc => hkk hc.symm)] at h2
              exact hurl k rl h2
          have hclosedN : Closed selN pendN := by
            intro k rl hr2 dep hdep
            have h2 := a2 k rl hr2
            by_cases hkk : k = key
            · subst hkk
              rw [alGet_set_self] at h2
              have hc : cand = rl := Option.some.inj h2
              subst hc
              exact a4 dep hdep
            · rw [alGet_set_ne selM key k cand (fun hc => hkk hc.symm)] at h2
              exact a3 _ (htrans _ (hclosed k rl h2 dep hdep))
          have hdcovN : DCov D selN pendN := fun k hk => a3 k (htrans k (hdcov k hk))
          exact IH selN consN pendN le r0 s2 c2 a1 hurlN hclosedN hdcovN hrec hres
        | none =>
          rw [hr0] at htc
          dsimp only at htc
          exact tryCandidates_sound repo Q D n IH cands key selM cons rest r0.lastError
            r s2 c2 hnd hurl hclosed hdcov
            (fun c hc => hcands c (List.mem_cons_of_mem _ hc)) htc hres

theorem search_ok_sound (repo : ReleaseRepository) (Q : SkillRelease → Prop)
    (D : List String)
    (hQ : ∀ ref reqs cands, candidateReleases repo ref reqs = .ok cands → ∀ c ∈ cands, Q c) :
    ∀ (fuel : Nat) (sel : AList SkillRelease) (cons : AList (List Requirement))
      (pend : List String) (le : Option String) (r : SearchRes)
      (s2 : AList SkillRelease) (c2 : AList (List Requirement)),
      NodupKeys sel → SelVals Q sel →
      Closed sel pend → DCov D sel pend →
      search repo fuel sel cons pend le = .ok r → r.result = some (s2, c2) →
      SearchGoal Q D s2 c2
  | 0, sel, cons, pend, le, r, s2, c2, _, _, _, _, hs, _ => by
    unfold search at hs
    exact Except.noConfusion hs
  | n + 1, sel, cons, pend, le, r, s2, c2, hnd, hurl, hclosed, hdcov, hs, hres => by
    unfold search at hs
    cases hrev : revalidate cons (alKeys sel) sel (dedupFirst pend) with
    | error e => rw [hrev] at hs; exact Except.noConfusion hs
    | ok pr =>
      obtain ⟨selM, pendM⟩ := pr
      rw [hrev] at hs
      dsimp only at hs
      have hcov0 : ∀ k, Covered sel pend k → Covered sel (dedupFirst pend) k := by
        intro k hk
        rcases hk with hk | hk
        · exact Or.inl hk
        · exact Or.inr ((mem_dedupFirst pend k).mpr hk)
      have hcovM : ∀ k, Covered sel pend k → Covered selM pendM k := fun k hk =>
        revalidate_covered cons (alKeys sel) sel (dedupFirst pend) selM pendM hrev k (hcov0 k hk)
      have hshrinkM : ∀ k rl, alGet selM k = some rl → alGet sel k = some rl :=
        revalidate_shrink cons (alKeys sel) sel (dedupFirst pend) selM pendM hnd hrev
      have hndM : NodupKeys selM :=
        revalidate_nodup cons (alKeys sel) sel (dedupFirst pend) selM pendM hnd hrev
      have hurlM : SelVals Q selM :=
        fun k rl hr2 => hurl k rl (hshrinkM k rl hr2)
      have hclosedM : Closed selM pendM := fun k rl hr2 dep hdep =>
        hcovM _ (hclosed k rl (hshrinkM k rl hr2) dep hdep)
      have hdcovM : DCov D selM pendM := fun k hk => hcovM k (hdcov k hk)
      cases pendM with
      | nil =>
        dsimp only at hs
        have hr : (⟨some (selM, cons), le⟩ : SearchRes) = r := Except.ok.inj hs
        rw [← hr] at hres
        have hp : (selM, cons) = (s2, c2) := Option.some.inj hres
        have hps : selM = s2 := congrArg Prod.fst hp
        have hpc : cons = c2 := congrArg Prod.snd hp
        subst hps; subst hpc
        refine ⟨hndM, hurlM, ?_, ?_, hdcovM⟩
        · intro k rl hr2
          exact revalidate_sound cons (alKeys sel) sel (dedupFirst pend) selM [] hnd hrev
            k rl hr2 (mem_keys_of_alGet_some (hshrinkM k rl hr2))
        · exact hclosedM
      | cons key restP =>
        dsimp only at hs
        cases hpk : parseSkillRef key with
        | error e => rw [hpk] at hs; exact Except.noConfusion hs
        | ok ref =>
          rw [hpk] at hs
          dsimp only at hs
          cases hcand : candidateReleases repo ref ((alGet cons key).getD []) with
          | error e =>
            rw [hcand] at hs
            have hr : (⟨none, some e⟩ : SearchRes) = r := Except.ok.inj hs
            rw [← hr] at hres
            exact Option.noConfusion hres
          | ok candidates =>
            rw [hcand] at hs
            exact tryCandidates_sound repo Q D n (search_ok_sound repo Q D hQ n) candidates key
              selM cons restP le r s2 c2 hndM hurlM hclosedM hdcovM
              (hQ ref _ candidates hcand) hs hres

theorem versionSatisfiesAll_ok_true (v : String) :
    ∀ reqs : List Requirement,
      versionSatisfiesAll v reqs = .ok true ↔
        ∀ rq ∈ reqs, versionSatisfies v rq.specifier = .ok true
  | [] => by simp [versionSatisfiesAll]
  | rq :: rqs => by
    unfold versionSatisfiesAll
    cases hv : versionSatisfies v rq.specifier with
    | error e =>
      constructor
      · intro hc; exact Except.noConfusion hc
      · intro hall
        have := hall rq (by simp)
        rw [hv] at this
        exact Except.noConfusion this
    | ok b =>
      dsimp only
      by_cases hb : b
      · subst hb
        rw [if_pos rfl]
        rw [versionSatisfiesAll_ok_true v rqs]
        constructor
        · intro hall rq2 hm
          rcases List.mem_cons.mp hm with rfl | hm
          · exact hv
          · exact hall rq2 hm
        · intro hall rq2 hm
          exact hall rq2 (List.mem_cons_of_mem _ hm)
      · rw [if_neg hb]
        constructor
        · intro hc
          have : false = true := by simpa using Except.ok.inj hc
          exact Bool.noConfusion this
        · intro hall
          have := hall rq (by simp)
          rw [hv] at this
          have hbt : b = true := by simpa using Except.ok.inj this
          exact absurd hbt hb

theorem initConstraints_pend_mono :
    ∀ (items : List (String × String)) (cons : AList (List Requirement))
      (pend : List String) (consR : AList (List Requirement)) (pendR : List String),
      initConstraints items cons pend = .ok (consR, pendR) →
      ∀ k ∈ pend, k ∈ pendR
  | [], cons, pend, consR, pendR, h => by
    have hp : pend = pendR := congrArg Prod.snd (Except.ok.inj h)
    subst hp
    exact fun k hk => hk
  | (key, spec) :: items, cons, pend, consR, pendR, h => by
    unfold initConstraints at h
    cases hpk : parseSkillRef key with
    | error e => rw [hpk] at h; exact Except.noConfusion h
    | ok ref =>
      rw [hpk] at h
      dsimp only at h
      intro k hk
      refine initConstraints_pend_mono items _ _ consR pendR h k ?_
      by_cases hc : ref.key ∈ pend
      · rw [if_pos hc]; exact hk
      · rw [if_neg hc]; exact List.mem_append_left _ hk

theorem initConstraints_direct_keys :
    ∀ (items : List (String × String)) (cons : AList (List Requirement))
      (pend : List String) (consR : AList (List Requirement)) (pendR : List String),
      initConstraints items cons pend = .ok (consR, pendR) →
      ∀ kv ∈ items, ∀ ref, parseSkillRef kv.1 = .ok ref → ref.key ∈ pendR
  | [], cons, pend, consR, pendR, h => by
    intro kv hkv
    exact absurd hkv (by simp)
  | (key, spec) :: items, cons, pend, consR, pendR, h => by
    unfold initConstraints at h
    cases hpk : parseSkillRef key with
    | error e => rw [hpk] at h; exact Except.noConfusion h
    | ok ref0 =>
      rw [hpk] at h
      dsimp only at h
      intro kv hkv ref href
      rcases List.mem_cons.mp hkv with rfl | hkv
      · have hr0 : ref0 = ref := by
          rw [hpk] at href
          exact Except.ok.inj href
        subst hr0
        refine initConstraints_pend_mono items _ _ consR pendR h ref0.key ?_
        by_cases hc : ref0.key ∈ pend
        · rw [if_pos hc]; exact hc
        · rw [if_neg hc]; exact List.mem_append_right _ (by simp)
      · exact initConstraints_direct_keys items _ _ consR pendR h kv hkv ref href

theorem mem_insertPairAsc (x : String × String) :
    ∀ (l : List (String × String)) (a : String × String),
      a ∈ insertPairAsc x l ↔ a = x ∨ a ∈ l
  | [], a => by simp [insertPairAsc]
  | y :: ys, a => by
    unfold insertPairAsc
    by_cases hc : pairLe x y
    · rw [if_pos hc]
      simp only [List.mem_cons]
    · rw [if_neg hc]
      simp only [List.mem_cons, mem_insertPairAsc x ys a]
      tauto

theorem mem_sortPairs : ∀ (l : List (String × String)) (a : String × String),
    a ∈ sortPairs l ↔ a ∈ l
  | [], a => by simp [sortPairs]
  | x :: xs, a => by
    unfold sortPairs
    rw [mem_insertPairAsc, mem_sortPairs xs a]
    simp only [List.mem_cons]

/-- **C2.** Whenever `resolve_dependency_graph` succeeds, the returned
solution maps each key to exactly one Release (the selection map has
pairwise-distinct keys); every returned Release satisfies, via
`version_satisfies`, every Requirement accumulated in the returned
constraints map for its key; and the solution covers every reachable
key: each direct key and each dependency key of every selected release
is selected. -/
theorem c2_resolver_solution_sound (fuel : Nat) (direct : List (String × String))
    (repo : ReleaseRepository) (sel : AList SkillRelease) (cons : AList (List Requirement))
    (h : resolveDependencyGraph fuel direct repo = .ok (sel, cons)) :
    NodupKeys sel
    ∧ (∀ k rel, alGet sel k = some rel →
        ∀ rq ∈ (alGet cons k).getD [], versionSatisfies rel.version rq.specifier = .ok true)
    ∧ (∀ kv ∈ direct, ∀ ref, parseSkillRef kv.1 = .ok ref → (alGet sel ref.key).isSome)
    ∧ (∀ k rel, alGet sel k = some rel →
        ∀ dep ∈ rel.dependencies, (alGet sel dep.ref.key).isSome) := by
  unfold resolveDependencyGraph at h
  cases hin : initConstraints (sortPairs direct) [] [] with
  | error e => rw [hin] at h; exact Except.noConfusion h
  | ok pr =>
    obtain ⟨constraints, pending⟩ := pr
    rw [hin] at h
    dsimp only at h
    cases hsr : search repo fuel [] constraints pending none with
    | error e => rw [hsr] at h; exact Except.noConfusion h
    | ok r =>
      rw [hsr] at h
      dsimp only at h
      cases hr : r.result with
      | none =>
        rw [hr] at h
        dsimp only at h
        cases hle : r.lastError with
        | none => rw [hle] at h; exact Except.noConfusion h
        | some e => rw [hle] at h; exact Except.noConfusion h
      | some sol =>
        rw [hr] at h
        dsimp only at h
        have hsol : sol = (sel, cons) := Except.ok.inj h
        subst hsol
        have hgoal := search_ok_sound repo (fun rel => hasDownloadUrl rel = true) pending
          (fun ref reqs cands hc => candidateReleases_urls repo ref reqs cands hc)
          fuel [] constraints pending none r
          sel cons List.nodup_nil (fun k rl hk => Option.noConfusion hk)
          (fun k rl hk => Option.noConfusion hk) (fun k hk => Or.inr hk) hsr hr
        rcases hgoal with ⟨g1, g2, g3, g4, g5⟩
        refine ⟨g1, ?_, ?_, ?_⟩
        · intro k rel hk rq hrq
          exact ((versionSatisfiesAll_ok_true rel.version _).mp (g3 k rel hk)) rq hrq
        · intro kv hkv ref href
          have hmem : ref.key ∈ pending :=
            initConstraints_direct_keys (sortPairs direct) [] [] constraints pending hin
              kv ((mem_sortPairs direct kv).mpr hkv) ref href
          rcases g5 ref.key hmem with hc | hc
          · exact hc
          · exact absurd hc (by simp)
        · intro k rel hk dep hdep
          rcases g4 k rel hk dep hdep with hc | hc
          · exact hc
          · exact absurd hc (by simp)

/-- Witness for C2 at a one-release repository. -/
theorem c2_witness :
    resolveDependencyGraph 5 [("a/b", "latest")] (fakeRepo [("a/b", [mkRel "a" "b" "1.0.0"])]) =
      .ok ([("a/b", mkRel "a" "b" "1.0.0")], [("a/b", [⟨"latest", "direct"⟩])])
    ∧ (alGet [("a/b", mkRel "a" "b" "1.0.0")] (SkillRef.key ⟨"a", "b"⟩)).isSome :=
  ⟨by decide,
    (c2_resolver_solution_sound 5 [("a/b", "latest")]
        (fakeRepo [("a/b", [mkRel "a" "b" "1.0.0"])])
        [("a/b", mkRel "a" "b" "1.0.0")] [("a/b", [⟨"latest", "direct"⟩])]
        (by decide)).2.2.1 ("a/b", "latest") (by simp) ⟨"a", "b"⟩ (by decide)⟩

example : versionSatisfies "1.2.3" "1.2.3" = .ok true := by decide
example : versionSatisfies "1.2.3" ">=1.0.0 <2.0.0" = .ok true := by decide
example : versionSatisfies "1.2.3" "^1.1.0" = .ok true := by decide
example : versionSatisfies "1.2.3" "~1.2.0" = .ok true := by decide
example : versionSatisfies "3.1.4" "latest" = .ok true := by decide
example : versionSatisfies "2.0.0" "<2.0.0" = .ok false := by decide
example : versionSatisfies "1.2.3" "^2.0.0" = .ok false := by decide
example : versionSatisfies "1.3.0" "~1.2.0" = .ok false := by decide
example : versionSatisfies "2.0.0" "^1.1.0" = .ok false := by decide
example : extractExactVersion "=1.2.3" = .ok (some "1.2.3") := by decide
example : extractExactVersion "1.2.3" = .ok (some "1.2.3") := by decide
example : extractExactVersion "==1.2.3" = .ok (some "1.2.3") := by decide
example : extractExactVersion ">=1.2.3" = .ok none := by decide
example : extractExactVersion "latest" = .ok none := by decide
example : extractExactVersion "^1.2.3" = .ok none := by decide
example : extractExactVersion "1.2.3 2.0.0" = .ok none := by decide

example : compareVersions "1.2.3" "1.2.3" = 0 := by decide
example : compareVersions "2.0.0" "1.9.9" = 1 := by decide
example : compareVersions "1.0.0" "1.0.0-rc1" = 1 := by decide
example : compareVersions "1.0.0-alpha" "1.0.0-alpha.1" = -1 := by decide
example : compareVersions "1.0.0-2" "1.0.0-10" = -1 := by decide
example : compareVersions "1.0.0-2" "1.0.0-rc" = -1 := by decide
example : compareVersions "abc" "abd" = -1 := by decide
example : compareVersions "1.2" "1.2.0" = 0 := by decide
example : compareVersions "1.2.3+build5" "1.2.3" = 0 := by decide

/-! ## Reconciler (`LocalSkillManager._reconcile`, claims C5, C6)

The reconcile regexes use no construct that requires backtracking: every
repetition is followed by a character its class cannot contain, so
maximal munch is exact and `re.search` is "try a full match at every
position, leftmost first". -/

/-- Literal prefix match: if `pat` starts `l`, return the remainder. -/
def matchLit : List Char → List Char → Option (List Char)
  | [], l => some l
  | _ :: _, [] => none
  | p :: ps, c :: cs => if p = c then matchLit ps cs else none

/-- `re.search` driver: try a position matcher at every suffix,
leftmost first. -/
def scanFor {α : Type} (m : List Char → Option α) : List Char → Option α
  | [] => m []
  | c :: rest =>
    match m (c :: rest) with
    | some x => some x
    | none => scanFor m rest

/-- The character class `[A-Za-z0-9._-]` shared by the reconcile regexes. -/
def keyCls (c : Char) : Bool :=
  decide ('A' ≤ c ∧ c ≤ 'Z') || decide ('a' ≤ c ∧ c ≤ 'z') ||
  decide ('0' ≤ c ∧ c ≤ '9') || decide (c = '.') || decide (c = '_') || decide (c = '-')

/-- `([A-Za-z0-9._-]+/[A-Za-z0-9._-]+)`: greedy key capture (the class
excludes `/`, so maximal munch is exact); returns the captured key and
the remainder. -/
def matchKey (l : List Char) : Option (String × List Char) :=
  let p1 := l.takeWhile keyCls
  let r1 := l.dropWhile keyCls
  if p1 = [] then none
  else
    match r1 with
    | '/' :: r2 =>
      let p2 := r2.takeWhile keyCls
      let r3 := r2.dropWhile keyCls
      if p2 = [] then none
      else some (String.mk (p1 ++ '/' :: p2), r3)
    | _ => none

/-- `Skill not found or not visible:\s*(key)` tried at one position. -/
def notFoundAt (l : List Char) : Option String :=
  match matchLit "Skill not found or not visible:".data l with
  | none => none
  | some r => (matchKey (r.dropWhile isPySpace)).map (·.1)

/-- `No release found for\s*(key)\s+that satisfies constraints:` tried
at one position. -/
def noReleaseAt (l : List Char) : Option String :=
  match matchLit "No release found for".data l with
  | none => none
  | some r =>
    match matchKey (r.dropWhile isPySpace) with
    | none => none
    | some (k, r2) =>
      match r2 with
      | c :: r3 =>
        if isPySpace c then
          match matchLit "that satisfies constraints:".data (r3.dropWhile isPySpace) with
          | some _ => some k
          | none => none
        else none
      | [] => none

/-- `_MISSING_DOWNLOAD_URL_RE` tried at one position:
`Release\s+(key)@([^\s]+)\s+has no download URL\.?` (the optional final
dot constrains nothing). -/
def missingUrlAt (l : List Char) : Option (String × String) :=
  match matchLit "Release".data l with
  | none => none
  | some r =>
    match r with
    | c :: r1 =>
      if isPySpace c then
        match matchKey (r1.dropWhile isPySpace) with
        | none => none
        | some (k, r2) =>
          match r2 with
          | '@' :: r3 =>
            let ver := r3.takeWhile (fun ch => !isPySpace ch)
            let r4 := r3.dropWhile (fun ch => !isPySpace ch)
            if ver = [] then none
            else
              match r4 with
              | c2 :: r5 =>
                if isPySpace c2 then
                  match matchLit "has no download URL".data (r5.dropWhile isPySpace) with
                  | some _ => some (k, String.mk ver)
                  | none => none
                else none
              | [] => none
          | _ => none
      else none
    | [] => none

/-- `_parse_missing_download_url_error`. -/
def parseMissingDownloadUrl (message : String) : Option (String × String) :=
  scanFor missingUrlAt message.data

/-- Python `sub in message`. -/
def strContains (message sub : String) : Bool :=
  (scanFor (matchLit sub.data) message.data).isSome

/-- `_is_release_unavailable_error`. -/
def isReleaseUnavailable (message : String) : Bool :=
  strContains message "Skill not found or not visible:" ||
  strContains message "No release found for " ||
  strContains message "No downloadable release found for " ||
  (parseMissingDownloadUrl message).isSome

/-- The two missing-key regex probes of the reconcile loop, first
`Skill not found or not visible:`, then `No release found for …`. -/
def findMissingKey (msg : String) : Option String :=
  match scanFor notFoundAt msg.data with
  | some k => some k
  | none => scanFor noReleaseAt msg.data

/-- `_find_unresolvable_direct_skills`, taking the already-sorted item
list; the caller sorts. Failures keep iteration (= key) order. -/
def findUnresolvable (repo : ReleaseRepository) (fuel : Nat) :
    List (String × String) → Except String (AList String)
  | [] => .ok []
  | (key, req) :: items =>
    match resolveDependencyGraph fuel [(key, req)] repo with
    | .ok _ => findUnresolvable repo fuel items
    | .error e =>
      if isReleaseUnavailable e then
        match findUnresolvable repo fuel items with
        | .error e2 => .error e2
        | .ok fs => .ok ((key, e) :: fs)
      else .error e

/-- Pop each key in turn (`for key in …: effective_direct.pop(key, None)`). -/
def popAll {α : Type} : AList α → List String → AList α
  | m, [] => m
  | m, k :: ks => popAll (alPop m k) ks

/-- The `while True` resolve/drop loop of `_reconcile`, with an explicit
iteration bound (every non-final iteration removes at least one
effective key, so `_reconcile`'s `length + 1` bound below is never
exhausted on the Python paths). Returns the resolved map, the surviving
effective direct map and the accumulated warnings. -/
def dropLoop (repo : ReleaseRepository) (fuel : Nat) :
    Nat → AList String → List String →
    Except String (AList SkillRelease × AList String × List String)
  | 0, _, _ => .error "reconcile drop loop bound exhausted"
  | bound + 1, effective, warnings =>
    if effective = [] then .ok ([], effective, warnings)
    else
      match resolveDependencyGraph fuel effective repo with
      | .ok (resolved, _) => .ok (resolved, effective, warnings)
      | .error msg =>
        match
          (match findMissingKey msg with
           | some k => if (alGet effective k).isSome then some k else none
           | none => none) with
        | some missingKey =>
          dropLoop repo fuel bound (alPop effective missingKey)
            (warnings ++ ["Skipping missing direct skill: " ++ missingKey])
        | none =>
          match findUnresolvable repo fuel (sortPairs effective) with
          | .error e => .error e
          | .ok fs =>
            if fs = [] then .error msg
            else
              dropLoop repo fuel bound (popAll effective (fs.map (·.1)))
                (warnings ++ fs.map
                  (fun p => "Skipping unresolved direct skill: " ++ p.1 ++ " (" ++ p.2 ++ ")"))

/-- The cleaning loop of `_reconcile` over `direct_requirements.items()`:
`cleaned_direct[ref.key] = normalize_requirement(req)`. -/
def cleanDirect : List (String × String) → AList String → Except String (AList String)
  | [], acc => .ok acc
  | (key, req) :: items, acc =>
    match parseSkillRef key with
    | .error e => .error e
    | .ok ref => cleanDirect items (alSet acc ref.key (normalizeRequirement (some req)))

/-- Local filesystem/manifest state visible to `_reconcile`: which skill
directories exist, each directory's readable installed-meta version
string (an absent entry models both a missing meta file and a meta
without a string `version`), the lock's `skills` map reduced to the
version strings it stores, and the manifest's direct map. -/
structure LocalState where
  dirs : List String
  metas : AList String
  lockSkills : AList String
  manifestDirect : AList String
deriving DecidableEq, Repr

/-- `ReconcileResult` (the two path fields are not modelled). -/
structure ReconcileResult where
  installed : List String
  updated : List String
  removed : List String
  unchanged : List String
  warnings : List String
deriving DecidableEq, Repr

/-- The `current_version` computation for one key: the installed meta's
stripped version (empty → `None`), else the lock entry's stripped
version (empty → `None`). -/
def currentVersionOf (metas lockSkills : AList String) (key : String) : Option String :=
  match alGet metas key with
  | some m =>
    if pyStrip m.data = [] then
      match alGet lockSkills key with
      | some lv => if pyStrip lv.data = [] then none else some (String.mk (pyStrip lv.data))
      | none => none
    else some (String.mk (pyStrip m.data))
  | none =>
    match alGet lockSkills key with
    | some lv => if pyStrip lv.data = [] then none else some (String.mk (pyStrip lv.data))
    | none => none

/-- Mutable state of the install/update pass of `_reconcile`. -/
structure DiffState where
  installed : List String
  updated : List String
  unchanged : List String
  warnings : List String
  dirs : List String
  metas : AList String
deriving DecidableEq, Repr

/-- The `for key in sorted(resolved)` install/update pass. The archive
install itself is modelled as succeeding (its failure modes abort the
whole reconcile and are claim C4's model): it creates the skill
directory and writes the installed meta with the release version. -/
def diffLoop (repo : ReleaseRepository) (resolved : AList SkillRelease)
    (lockSkills : AList String) :
    List String → DiffState → Except String DiffState
  | [], st => .ok st
  | key :: keys, st =>
    match alGet resolved key with
    | none => diffLoop repo resolved lockSkills keys st   -- unreachable: key ∈ resolved
    | some rel =>
      let cv := currentVersionOf st.metas lockSkills key
      let isUnchanged : Bool :=
        decide (key ∈ st.dirs) &&
          (match cv with
           | some v => compareVersions v rel.version == 0
           | none => false)
      if isUnchanged then
        diffLoop repo resolved lockSkills keys { st with unchanged := st.unchanged ++ [key] }
      else
        match repo.downloadArchive rel with
        | .error e =>
          match parseMissingDownloadUrl e with
          | none => .error e
          | some (mkey, mver) =>
            diffLoop repo resolved lockSkills keys
              { st with warnings :=
                  st.warnings ++ ["Skipping release without download URL: " ++ mkey ++ "@" ++ mver] }
        | .ok _ =>
          let existed : Bool := decide (key ∈ st.dirs) || cv.isSome
          let st2 : DiffState :=
            { st with
              dirs := if key ∈ st.dirs then st.dirs else st.dirs ++ [key],
              metas := alSet st.metas key rel.version }
          if existed then
            diffLoop repo resolved lockSkills keys { st2 with updated := st2.updated ++ [key] }
          else
            diffLoop repo resolved lockSkills keys { st2 with installed := st2.installed ++ [key] }

/-- The `for key in sorted(current_skills)` prune pass: remove every
locked skill no longer resolved (its directory, hence also its meta). -/
def pruneLoop (resolved : AList SkillRelease) :
    List String → List String → List String → AList String →
    Except String (List String × List String × AList String)
  | [], removed, dirs, metas => .ok (removed, dirs, metas)
  | key :: keys, removed, dirs, metas =>
    if (alGet resolved key).isSome then pruneLoop resolved keys removed dirs metas
    else
      match parseSkillRef key with
      | .error e => .error e
      | .ok _ =>
        pruneLoop resolved keys (removed ++ [key]) (dirs.erase key) (alPop metas key)

/-- `_save_lock`'s `skills` payload reduced to the version it stores per
key: keys sorted, each mapped to its resolved release's version. -/
def newLockSkills (resolved : AList SkillRelease) : AList String :=
  (sortStrings (alKeys resolved)).filterMap
    (fun k => (alGet resolved k).map (fun rel => (k, rel.version)))

/-- `_reconcile` over the pure local state: clean, resolve with the
drop loop, install/update, prune, then persist manifest and lock. -/
def reconcile (repo : ReleaseRepository) (fuel : Nat)
    (direct : List (String × String)) (st : LocalState) :
    Except String (ReconcileResult × LocalState) :=
  match cleanDirect direct [] with
  | .error e => .error e
  | .ok cleaned =>
    match dropLoop repo fuel (cleaned.length + 1) cleaned [] with
    | .error e => .error e
    | .ok (resolved, effective, warnings) =>
      match diffLoop repo resolved st.lockSkills (sortStrings (alKeys resolved))
          ⟨[], [], [], warnings, st.dirs, st.metas⟩ with
      | .error e => .error e
      | .ok dst =>
        match pruneLoop resolved (sortStrings (alKeys st.lockSkills)) [] dst.dirs dst.metas with
        | .error e => .error e
        | .ok (removed, dirs2, metas2) =>
          .ok (⟨dst.installed, dst.updated, removed, dst.unchanged, dst.warnings⟩,
               ⟨dirs2, metas2, newLockSkills resolved, sortPairs effective⟩)

/-- Versions an `ApiReleaseRepository` can serve: parsed with
`(obj.get("version") or "").strip()` and dropped when empty, so already
stripped and nonempty. -/
def VersionOk (rel : SkillRelease) : Prop :=
  pyStrip rel.version.data = rel.version.data ∧ rel.version.data ≠ []

/-- The repository contract `ApiReleaseRepository` honours: served
release versions are stripped and nonempty, and `download_archive`
raises the `has no download URL` message only for releases without a
download URL. -/
def RepoWellFormed (repo : ReleaseRepository) : Prop :=
  (∀ ref rels, repo.listReleases ref = .ok rels → ∀ rel ∈ rels, VersionOk rel) ∧
  (∀ ref v rel, repo.getRelease ref v = .ok (some rel) → VersionOk rel) ∧
  (∀ rel e, hasDownloadUrl rel = true → repo.downloadArchive rel = .error e →
    parseMissingDownloadUrl e = none)

/-- A well-formed repository serving one skill `acme/app@1.0.0` and
answering `Skill not found or not visible` for every other ref, in the
shape of `ApiReleaseRepository`'s 404 handling. -/
def wfRepo : ReleaseRepository where
  listReleases := fun ref =>
    if ref.key = "acme/app" then .ok [mkRel "acme" "app" "1.0.0"]
    else .error ("Skill not found or not visible: " ++ ref.key)
  getRelease := fun ref version =>
    if ref.key = "acme/app" then
      .ok (if compareVersions version "1.0.0" == 0 then some (mkRel "acme" "app" "1.0.0") else none)
    else .error ("Skill not found or not visible: " ++ ref.key)
  downloadArchive := fun rel =>
    if hasDownloadUrl rel then .ok ()
    else .error ("Release " ++ rel.ref.key ++ "@" ++ rel.version ++ " has no download URL.")

/-- **C6.** When the resolve attempt of the reconcile loop fails with a
message the missing-skill probes parse to a key that is still in the
effective direct map, the loop drops exactly that package, records the
warning naming it, and continues reconciling the remaining direct
requirements: the not-found failure is consumed, not propagated, so the
reconcile as a whole fails only if the remaining requirements
themselves fail. -/
theorem c6_unreachable_direct_is_dropped (repo : ReleaseRepository) (fuel bound : Nat)
    (effective : AList String) (warnings : List String) (msg missingKey : String)
    (hne : effective ≠ [])
    (hres : resolveDependencyGraph fuel effective repo = .error msg)
    (hfind : findMissingKey msg = some missingKey)
    (hmem : (alGet effective missingKey).isSome = true) :
    dropLoop repo fuel (bound + 1) effective warnings =
      dropLoop repo fuel bound (alPop effective missingKey)
        (warnings ++ ["Skipping missing direct skill: " ++ missingKey]) := by
  conv_lhs => unfold dropLoop
  rw [if_neg hne, hres]
  dsimp only
  rw [hfind]
  dsimp only
  rw [hmem, if_pos (rfl : true = true)]

/-- Witness for C6: with `wfRepo`, reconciling `acme/app` (available)
together with `missing/skill` (reported not found) drops the missing
skill with the naming warning — the drop step is the theorem applied to
the failing resolve — and the overall reconcile still succeeds,
installing `acme/app`. -/
theorem c6_witness :
    reconcile wfRepo 10 [("acme/app", "latest"), ("missing/skill", "^1.0.0")] ⟨[], [], [], []⟩ =
      .ok (⟨["acme/app"], [], [], [], ["Skipping missing direct skill: missing/skill"]⟩,
           ⟨["acme/app"], [("acme/app", "1.0.0")], [("acme/app", "1.0.0")],
            [("acme/app", "latest")]⟩)
    ∧ dropLoop wfRepo 10 2 [("acme/app", "latest"), ("missing/skill", "^1.0.0")] [] =
        dropLoop wfRepo 10 1
          (alPop [("acme/app", "latest"), ("missing/skill", "^1.0.0")] "missing/skill")
          ["Skipping missing direct skill: missing/skill"] :=
  ⟨by decide,
   c6_unreachable_direct_is_dropped wfRepo 10 1
     [("acme/app", "latest"), ("missing/skill", "^1.0.0")] []
     "Could not resolve dependency graph. Last error: Skill not found or not visible: missing/skill"
     "missing/skill" (by decide) (by decide) (by decide) (by decide)⟩

/-! ## Reconcile idempotence (claim C5): lemma stack -/

theorem string_mk_data (s : String) : String.mk s.data = s := rfl

theorem compareVersions_self (v : String) : compareVersions v v = 0 :=
  compareVersionsL_self v.data

theorem mem_insertDescBy {α : Type} (cmp : α → α → Int) (x : α) :
    ∀ (l : List α) (a : α), a ∈ insertDescBy cmp x l → a = x ∨ a ∈ l
  | [], a, h => by
    unfold insertDescBy at h
    rcases List.mem_singleton.mp h with h
    exact Or.inl h
  | y :: ys, a, h => by
    unfold insertDescBy at h
    by_cases hc : cmp x y ≥ 0
    · rw [if_pos hc] at h
      rcases List.mem_cons.mp h with h | h
      · exact Or.inl h
      · exact Or.inr h
    · rw [if_neg hc] at h
      rcases List.mem_cons.mp h with h | h
      · exact Or.inr (List.mem_cons.mpr (Or.inl h))
      · rcases mem_insertDescBy cmp x ys a h with h | h
        · exact Or.inl h
        · exact Or.inr (List.mem_cons.mpr (Or.inr h))

theorem mem_sortDescBy {α : Type} (cmp : α → α → Int) :
    ∀ (l : List α) (a : α), a ∈ sortDescBy cmp l → a ∈ l
  | [], a, h => by exact absurd h (List.not_mem_nil a)
  | x :: xs, a, h => by
    unfold sortDescBy at h
    rcases mem_insertDescBy cmp x _ a h with h | h
    · exact List.mem_cons.mpr (Or.inl h)
    · exact List.mem_cons.mpr (Or.inr (mem_sortDescBy cmp xs a h))

theorem filterSatisfying_subset (reqs : List Requirement) :
    ∀ (l out : List SkillRelease), filterSatisfying reqs l = .ok out →
      ∀ r ∈ out, r ∈ l
  | [], out, h, r, hr => by
    unfold filterSatisfying at h
    cases Except.ok.inj h
    exact absurd hr (List.not_mem_nil r)
  | x :: xs, out, h, r, hr => by
    unfold filterSatisfying at h
    cases hsat : versionSatisfiesAll x.version reqs with
    | error e => rw [hsat] at h; exact Except.noConfusion h
    | ok b =>
      rw [hsat] at h
      dsimp only at h
      cases htl : filterSatisfying reqs xs with
      | error e => rw [htl] at h; exact Except.noConfusion h
      | ok tl =>
        rw [htl] at h
        dsimp only at h
        cases Except.ok.inj h
        by_cases hb : b = true
        · rw [if_pos hb] at hr
          rcases List.mem_cons.mp hr with hr | hr
          · exact List.mem_cons.mpr (Or.inl hr)
          · exact List.mem_cons.mpr (Or.inr (filterSatisfying_subset reqs xs tl htl r hr))
        · rw [if_neg hb] at hr
          exact List.mem_cons.mpr (Or.inr (filterSatisfying_subset reqs xs tl htl r hr))

theorem hydrateRelease_origin (repo : ReleaseRepository) (r h : SkillRelease)
    (hh : hydrateRelease repo r = .ok h) :
    h = r ∨ ∃ ref v, repo.getRelease ref v = .ok (some h) := by
  unfold hydrateRelease at hh
  by_cases hu : hasDownloadUrl r = true
  · rw [if_pos hu] at hh
    exact Or.inl (Except.ok.inj hh).symm
  · rw [if_neg hu] at hh
    cases hg : repo.getRelease r.ref r.version with
    | error e => rw [hg] at hh; exact Except.noConfusion hh
    | ok o =>
      rw [hg] at hh
      cases o with
      | none =>
        dsimp only at hh
        exact Or.inl (Except.ok.inj hh).symm
      | some hyd =>
        dsimp only at hh
        by_cases hk : hyd.ref.key ≠ r.ref.key
        · rw [if_pos hk] at hh
          exact Or.inl (Except.ok.inj hh).symm
        · rw [if_neg hk] at hh
          by_cases hv : compareVersions hyd.version r.version ≠ 0
          · rw [if_pos hv] at hh
            exact Or.inl (Except.ok.inj hh).symm
          · rw [if_neg hv] at hh
            cases Except.ok.inj hh
            exact Or.inr ⟨r.ref, r.version, hg⟩

theorem hydrateAll_origin (repo : ReleaseRepository) :
    ∀ (l out : List SkillRelease), hydrateAll repo l = .ok out →
      ∀ h ∈ out, h ∈ l ∨ ∃ ref v, repo.getRelease ref v = .ok (some h)
  | [], out, hh, h, hmem => by
    unfold hydrateAll at hh
    cases Except.ok.inj hh
    exact absurd hmem (List.not_mem_nil h)
  | x :: xs, out, hh, h, hmem => by
    unfold hydrateAll at hh
    cases hx : hydrateRelease repo x with
    | error e => rw [hx] at hh; exact Except.noConfusion hh
    | ok hx1 =>
      rw [hx] at hh
      dsimp only at hh
      cases htl : hydrateAll repo xs with
      | error e => rw [htl] at hh; exact Except.noConfusion hh
      | ok tl =>
        rw [htl] at hh
        dsimp only at hh
        cases Except.ok.inj hh
        rcases List.mem_cons.mp hmem with hmem | hmem
        · subst hmem
          rcases hydrateRelease_origin repo x h hx with he | he
          · exact Or.inl (List.mem_cons.mpr (Or.inl he))
          · exact Or.inr he
        · rcases hydrateAll_origin repo xs tl htl h hmem with he | he
          · exact Or.inl (List.mem_cons.mpr (Or.inr he))
          · exact Or.inr he

/-- Under the well-formedness contract, every candidate of the slow path
has a stripped, nonempty version: it came from the release listing or
from a per-version lookup. -/
theorem candidateReleasesSlow_versionOk (repo : ReleaseRepository)
    (hL : ∀ ref rels, repo.listReleases ref = .ok rels → ∀ rel ∈ rels, VersionOk rel)
    (hG : ∀ ref v rel, repo.getRelease ref v = .ok (some rel) → VersionOk rel)
    (ref : SkillRef) (reqs : List Requirement) (cands : List SkillRelease)
    (h : candidateReleasesSlow repo ref reqs = .ok cands) :
    ∀ c ∈ cands, VersionOk c := by
  unfold candidateReleasesSlow at h
  cases hl : repo.listReleases ref with
  | error e => rw [hl] at h; exact Except.noConfusion h
  | ok releases =>
    rw [hl] at h
    dsimp only at h
    cases hf : filterSatisfying reqs
        (sortDescBy (fun a b => compareVersions a.version b.version) releases) with
    | error e => rw [hf] at h; exact Except.noConfusion h
    | ok matched =>
      rw [hf] at h
      dsimp only at h
      cases hh : hydrateAll repo matched with
      | error e => rw [hh] at h; exact Except.noConfusion h
      | ok hydrated =>
        rw [hh] at h
        dsimp only at h
        split_ifs at h with h1 h2
        have hc : hydrated.filter hasDownloadUrl = cands := Except.ok.inj h
        subst hc
        intro c hc
        have hcm : c ∈ hydrated := (List.mem_filter.mp hc).1
        rcases hydrateAll_origin repo matched hydrated hh c hcm with ho | ⟨ref2, v2, hg⟩
        · have hms : c ∈ releases :=
            mem_sortDescBy _ releases c (filterSatisfying_subset reqs _ matched hf c ho)
          exact hL ref releases hl c hms
        · exact hG ref2 v2 c hg

/-- Under the well-formedness contract, every candidate
`_candidate_releases` returns has a stripped, nonempty version. -/
theorem candidateReleases_versionOk (repo : ReleaseRepository)
    (hL : ∀ ref rels, repo.listReleases ref = .ok rels → ∀ rel ∈ rels, VersionOk rel)
    (hG : ∀ ref v rel, repo.getRelease ref v = .ok (some rel) → VersionOk rel)
    (ref : SkillRef) (reqs : List Requirement) (cands : List SkillRelease)
    (h : candidateReleases repo ref reqs = .ok cands) :
    ∀ c ∈ cands, VersionOk c := by
  unfold candidateReleases at h
  cases he : extractExacts reqs with
  | error e => rw [he] at h; exact Except.noConfusion h
  | ok exacts =>
    rw [he] at h
    dsimp only at h
    split_ifs at h with h1
    obtain _ | ⟨version, _ | ⟨v2, restx⟩⟩ := exacts
    · dsimp only at h
      exact candidateReleasesSlow_versionOk repo hL hG ref reqs cands h
    · dsimp only at h
      cases hg : repo.getRelease ref version with
      | error e => rw [hg] at h; exact Except.noConfusion h
      | ok orel =>
        rw [hg] at h
        obtain _ | rel := orel
        · dsimp only at h
          exact candidateReleasesSlow_versionOk repo hL hG ref reqs cands h
        · dsimp only at h
          cases hv : versionSatisfiesAll rel.version reqs with
          | error e => rw [hv] at h; exact Except.noConfusion h
          | ok sat =>
            rw [hv] at h
            dsimp only at h
            by_cases hc : (sat && hasDownloadUrl rel) = true
            · rw [if_pos hc] at h
              have hcs : [rel] = cands := Except.ok.inj h
              subst hcs
              intro c hcm
              have hceq : c = rel := List.mem_singleton.mp hcm
              subst hceq
              exact hG ref version c hg
            · rw [if_neg hc] at h
              exact candidateReleasesSlow_versionOk repo hL hG ref reqs cands h
    · dsimp only at h
      exact candidateReleasesSlow_versionOk repo hL hG ref reqs cands h

/-- Any solution `resolve_dependency_graph` returns under a well-formed
repository has distinct keys and selects only downloadable,
well-versioned releases. -/
theorem resolve_ok_selvals (repo : ReleaseRepository) (fuel : Nat)
    (direct : List (String × String)) (sel : AList SkillRelease)
    (cons : AList (List Requirement))
    (hL : ∀ ref rels, repo.listReleases ref = .ok rels → ∀ rel ∈ rels, VersionOk rel)
    (hG : ∀ ref v rel, repo.getRelease ref v = .ok (some rel) → VersionOk rel)
    (h : resolveDependencyGraph fuel direct repo = .ok (sel, cons)) :
    NodupKeys sel ∧
      ∀ k rel, alGet sel k = some rel → hasDownloadUrl rel = true ∧ VersionOk rel := by
  unfold resolveDependencyGraph at h
  cases hi : initConstraints (sortPairs direct) [] [] with
  | error e => rw [hi] at h; exact Except.noConfusion h
  | ok cp =>
    obtain ⟨constraints, pending⟩ := cp
    rw [hi] at h
    dsimp only at h
    cases hsr : search repo fuel [] constraints pending none with
    | error e => rw [hsr] at h; exact Except.noConfusion h
    | ok r =>
      rw [hsr] at h
      dsimp only at h
      cases hr : r.result with
      | none =>
        rw [hr] at h
        dsimp only at h
        cases hle : r.lastError with
        | none => rw [hle] at h; exact Except.noConfusion h
        | some e => rw [hle] at h; exact Except.noConfusion h
      | some sol =>
        rw [hr] at h
        dsimp only at h
        have hsol : sol = (sel, cons) := Except.ok.inj h
        subst hsol
        have hgoal := search_ok_sound repo
          (fun rel => hasDownloadUrl rel = true ∧ VersionOk rel) pending
          (fun ref reqs cands hc => fun c hcm =>
            ⟨candidateReleases_urls repo ref reqs cands hc c hcm,
             candidateReleases_versionOk repo hL hG ref reqs cands hc c hcm⟩)
          fuel [] constraints pending none r
          sel cons List.nodup_nil (fun k rl hk => Option.noConfusion hk)
          (fun k rl hk => Option.noConfusion hk) (fun k hk => Or.inr hk) hsr hr
        exact ⟨hgoal.1, fun k rel hk => hgoal.2.1 k rel hk⟩

/-- Every nonempty resolved map the drop loop returns came from a
successful `resolve_dependency_graph` call. -/
theorem dropLoop_resolved_origin (repo : ReleaseRepository) (fuel : Nat) :
    ∀ (bound : Nat) (effective : AList String) (warnings : List String)
      (resolved : AList SkillRelease) (eff2 : AList String) (w2 : List String),
      dropLoop repo fuel bound effective warnings = .ok (resolved, eff2, w2) →
      resolved = [] ∨
        ∃ e cons, resolveDependencyGraph fuel e repo = .ok (resolved, cons)
  | 0, effective, warnings, resolved, eff2, w2, h => by
    unfold dropLoop at h
    exact Except.noConfusion h
  | bound + 1, effective, warnings, resolved, eff2, w2, h => by
    unfold dropLoop at h
    by_cases hne : effective = []
    · rw [if_pos hne] at h
      cases Except.ok.inj h
      exact Or.inl rfl
    · rw [if_neg hne] at h
      cases hres : resolveDependencyGraph fuel effective repo with
      | ok sol =>
        rw [hres] at h
        obtain ⟨res0, cons0⟩ := sol
        dsimp only at h
        cases Except.ok.inj h
        exact Or.inr ⟨effective, cons0, hres⟩
      | error msg =>
        rw [hres] at h
        dsimp only at h
        cases hmk : (match findMissingKey msg with
            | some k => if (alGet effective k).isSome = true then some k else none
            | none => none) with
        | some missingKey =>
          rw [hmk] at h
          dsimp only at h
          exact dropLoop_resolved_origin repo fuel bound _ _ resolved eff2 w2 h
        | none =>
          rw [hmk] at h
          dsimp only at h
          cases hfu : findUnresolvable repo fuel (sortPairs effective) with
          | error e => rw [hfu] at h; exact Except.noConfusion h
          | ok fs =>
            rw [hfu] at h
            dsimp only at h
            by_cases hfs : fs = []
            · rw [if_pos hfs] at h
              exact Except.noConfusion h
            · rw [if_neg hfs] at h
              exact dropLoop_resolved_origin repo fuel bound _ _ resolved eff2 w2 h

theorem alGet_isSome_of_mem_keys {α : Type} :
    ∀ (m : AList α) (k : String), k ∈ alKeys m → (alGet m k).isSome = true
  | [], k, h => by exact absurd h (List.not_mem_nil k)
  | (k0, v0) :: rest, k, h => by
    unfold alGet
    by_cases he : k0 = k
    · rw [if_pos he]; rfl
    · rw [if_neg he]
      rw [alKeys_cons] at h
      rcases List.mem_cons.mp h with h | h
      · exact absurd h.symm he
      · exact alGet_isSome_of_mem_keys rest k h

theorem mem_insertAscStr (x : String) :
    ∀ (l : List String) (a : String), a ∈ insertAscStr x l ↔ a = x ∨ a ∈ l
  | [], a => by
    unfold insertAscStr
    simp
  | y :: ys, a => by
    unfold insertAscStr
    by_cases hc : lexCmp x.data y.data ≤ 0
    · rw [if_pos hc]
      simp
    · rw [if_neg hc]
      rw [List.mem_cons, List.mem_cons, mem_insertAscStr x ys a]
      tauto

theorem mem_sortStrings :
    ∀ (l : List String) (a : String), a ∈ sortStrings l ↔ a ∈ l
  | [], a => Iff.rfl
  | x :: xs, a => by
    unfold sortStrings
    rw [mem_insertAscStr, mem_sortStrings xs a, List.mem_cons]

/-- The generic shape of the saved lock: `alGet` of the key-sorted
`filterMap` projection agrees with `alGet` of the resolved map. -/
theorem alGet_lockProj (resolved : AList SkillRelease) (k : String) (rel : SkillRelease)
    (h : alGet resolved k = some rel) :
    ∀ (l : List String), k ∈ l →
      alGet (l.filterMap fun k0 => (alGet resolved k0).map fun r => (k0, r.version)) k =
        some rel.version
  | [], hk => by exact absurd hk (List.not_mem_nil k)
  | k0 :: ks, hk => by
    rw [List.filterMap_cons]
    by_cases he : k0 = k
    · subst he
      rw [h]
      dsimp only [Option.map]
      unfold alGet
      rw [if_pos rfl]
    · cases hg : alGet resolved k0 with
      | none =>
        dsimp only [Option.map]
        rcases List.mem_cons.mp hk with hk1 | hk1
        · exact absurd hk1.symm he
        · exact alGet_lockProj resolved k rel h ks hk1
      | some r0 =>
        dsimp only [Option.map]
        unfold alGet
        rw [if_neg he]
        rcases List.mem_cons.mp hk with hk1 | hk1
        · exact absurd hk1.symm he
        · exact alGet_lockProj resolved k rel h ks hk1

/-- `alGet` of the saved lock at a resolved key is that key's resolved
version. -/
theorem alGet_newLockSkills (resolved : AList SkillRelease) (k : String) (rel : SkillRelease)
    (h : alGet resolved k = some rel) :
    alGet (newLockSkills resolved) k = some rel.version := by
  unfold newLockSkills
  exact alGet_lockProj resolved k rel h (sortStrings (alKeys resolved))
    ((mem_sortStrings (alKeys resolved) k).mpr (mem_keys_of_alGet_some h))

/-- Keys of the lock projection are resolved and belong to the
projected list. -/
theorem mem_keys_lockProj (resolved : AList SkillRelease) (k : String) :
    ∀ (l : List String),
      k ∈ alKeys (l.filterMap fun k0 => (alGet resolved k0).map fun r => (k0, r.version)) →
      k ∈ l ∧ (alGet resolved k).isSome = true
  | [], h => by exact absurd h (List.not_mem_nil k)
  | k0 :: ks, h => by
    rw [List.filterMap_cons] at h
    cases hg : alGet resolved k0 with
    | none =>
      rw [hg] at h
      dsimp only [Option.map] at h
      have hih := mem_keys_lockProj resolved k ks h
      exact ⟨List.mem_cons.mpr (Or.inr hih.1), hih.2⟩
    | some r0 =>
      rw [hg] at h
      dsimp only [Option.map] at h
      rw [alKeys_cons] at h
      rcases List.mem_cons.mp h with h1 | h1
      · subst h1
        exact ⟨List.mem_cons.mpr (Or.inl rfl), by rw [hg]; rfl⟩
      · have hih := mem_keys_lockProj resolved k ks h1
        exact ⟨List.mem_cons.mpr (Or.inr hih.1), hih.2⟩

/-- Every key of the saved lock is a resolved key. -/
theorem mem_keys_newLockSkills (resolved : AList SkillRelease) (k : String)
    (h : k ∈ alKeys (newLockSkills resolved)) :
    k ∈ sortStrings (alKeys resolved) ∧ (alGet resolved k).isSome = true := by
  unfold newLockSkills at h
  exact mem_keys_lockProj resolved k (sortStrings (alKeys resolved)) h

/-- The per-key state a successful install/update pass guarantees for a
resolved key: the skill directory exists, and a readable installed-meta
version is either whitespace-only (so the version lookup falls through
to the lock) or version-equal to the resolved release. -/
def KeyGood (dirs : List String) (metas : AList String) (k : String)
    (rel : SkillRelease) : Prop :=
  k ∈ dirs ∧
    ∀ m, alGet metas k = some m →
      pyStrip m.data = [] ∨ compareVersions (String.mk (pyStrip m.data)) rel.version = 0

/-- The install/update pass never un-does `KeyGood` for a resolved key:
directories are only added, and a meta write at that key writes the
resolved version itself. -/
theorem diff_preserve (repo : ReleaseRepository) (resolved : AList SkillRelease)
    (lock : AList String) :
    ∀ (keys : List String) (st dst : DiffState),
      diffLoop repo resolved lock keys st = .ok dst →
      ∀ k rel, alGet resolved k = some rel → VersionOk rel →
        KeyGood st.dirs st.metas k rel → KeyGood dst.dirs dst.metas k rel
  | [], st, dst, h, k, rel, hres, hvo, hg => by
    unfold diffLoop at h
    cases Except.ok.inj h
    exact hg
  | key :: keys, st, dst, h, k, rel, hres, hvo, hg => by
    unfold diffLoop at h
    cases hr0 : alGet resolved key with
    | none =>
      rw [hr0] at h
      dsimp only at h
      exact diff_preserve repo resolved lock keys st dst h k rel hres hvo hg
    | some rel0 =>
      rw [hr0] at h
      dsimp only at h
      by_cases hu : (decide (key ∈ st.dirs) &&
          (match currentVersionOf st.metas lock key with
           | some v => compareVersions v rel0.version == 0
           | none => false)) = true
      · rw [if_pos hu] at h
        exact diff_preserve repo resolved lock keys _ dst h k rel hres hvo hg
      · rw [if_neg hu] at h
        cases hd : repo.downloadArchive rel0 with
        | error e =>
          rw [hd] at h
          dsimp only at h
          cases hp : parseMissingDownloadUrl e with
          | none => rw [hp] at h; exact Except.noConfusion h
          | some p =>
            rw [hp] at h
            obtain ⟨mkey, mver⟩ := p
            dsimp only at h
            exact diff_preserve repo resolved lock keys _ dst h k rel hres hvo hg
        | ok u =>
          rw [hd] at h
          dsimp only at h
          have hgood2 : KeyGood
              (if key ∈ st.dirs then st.dirs else st.dirs ++ [key])
              (alSet st.metas key rel0.version) k rel := by
            constructor
            · by_cases hkd : key ∈ st.dirs
              · rw [if_pos hkd]; exact hg.1
              · rw [if_neg hkd]; exact List.mem_append.mpr (Or.inl hg.1)
            · intro m hm
              by_cases hkk : key = k
              · subst hkk
                rw [alGet_set_self] at hm
                have hrel : rel0 = rel := by
                  rw [hr0] at hres
                  exact Option.some.inj hres
                subst hrel
                have hmv : m = rel0.version := (Option.some.inj hm).symm
                subst hmv
                right
                rw [hvo.1, string_mk_data]
                exact compareVersions_self rel0.version
              · rw [alGet_set_ne st.metas key k rel0.version hkk] at hm
                exact hg.2 m hm
          by_cases hex : (decide (key ∈ st.dirs) ||
              (currentVersionOf st.metas lock key).isSome) = true
          · rw [if_pos hex] at h
            exact diff_preserve repo resolved lock keys _ dst h k rel hres hvo hgood2
          · rw [if_neg hex] at h
            exact diff_preserve repo resolved lock keys _ dst h k rel hres hvo hgood2

/-- Under the repository contract, a successful first install/update
pass establishes `KeyGood` for every resolved key it visits. -/
theorem diff_establish (repo : ReleaseRepository) (resolved : AList SkillRelease)
    (lock : AList String)
    (hvo : ∀ k rel, alGet resolved k = some rel → VersionOk rel)
    (hurl : ∀ k rel, alGet resolved k = some rel → hasDownloadUrl rel = true)
    (hdl : ∀ rel e, hasDownloadUrl rel = true → repo.downloadArchive rel = .error e →
      parseMissingDownloadUrl e = none) :
    ∀ (keys : List String) (st dst : DiffState),
      diffLoop repo resolved lock keys st = .ok dst →
      ∀ k ∈ keys, ∀ rel, alGet resolved k = some rel →
        KeyGood dst.dirs dst.metas k rel
  | [], st, dst, h, k, hk, rel, hres => by exact absurd hk (List.not_mem_nil k)
  | key :: keys, st, dst, h, k, hk, rel, hres => by
    unfold diffLoop at h
    cases hr0 : alGet resolved key with
    | none =>
      rw [hr0] at h
      dsimp only at h
      rcases List.mem_cons.mp hk with hk1 | hk1
      · subst hk1
        rw [hres] at hr0
        exact Option.noConfusion hr0
      · exact diff_establish repo resolved lock hvo hurl hdl keys st dst h k hk1 rel hres
    | some rel0 =>
      rw [hr0] at h
      dsimp only at h
      by_cases hu : (decide (key ∈ st.dirs) &&
          (match currentVersionOf st.metas lock key with
           | some v => compareVersions v rel0.version == 0
           | none => false)) = true
      · rw [if_pos hu] at h
        rcases List.mem_cons.mp hk with hk1 | hk1
        · -- the unchanged branch: the branch condition is exactly `KeyGood`
          subst hk1
          have hrel : rel0 = rel := by
            rw [hr0] at hres
            exact Option.some.inj hres
          subst hrel
          have hu2 : k ∈ st.dirs ∧
              (match currentVersionOf st.metas lock k with
               | some v => compareVersions v rel0.version == 0
               | none => false) = true := by
            rcases Bool.and_eq_true_iff.mp hu with ⟨h1, h2⟩
            exact ⟨of_decide_eq_true h1, h2⟩
          have hgood : KeyGood st.dirs st.metas k rel0 := by
            refine ⟨hu2.1, fun m hm => ?_⟩
            by_cases hms : pyStrip m.data = []
            · exact Or.inl hms
            · right
              have hcv : currentVersionOf st.metas lock k =
                  some (String.mk (pyStrip m.data)) := by
                unfold currentVersionOf
                rw [hm]
                dsimp only
                rw [if_neg hms]
              have h2 := hu2.2
              rw [hcv] at h2
              dsimp only at h2
              exact eq_of_beq h2
          exact diff_preserve repo resolved lock keys _ dst h k rel0 hres
            (hvo k rel0 hres) hgood
        · exact diff_establish repo resolved lock hvo hurl hdl keys _ dst h k hk1 rel hres
      · rw [if_neg hu] at h
        cases hd : repo.downloadArchive rel0 with
        | error e =>
          rw [hd] at h
          dsimp only at h
          cases hp : parseMissingDownloadUrl e with
          | none => rw [hp] at h; exact Except.noConfusion h
          | some p =>
            -- impossible under the contract: `rel0` is downloadable
            rw [hdl rel0 e (hurl key rel0 hr0) hd] at hp
            exact Option.noConfusion hp
        | ok u =>
          rw [hd] at h
          dsimp only at h
          have hgood2 : KeyGood
              (if key ∈ st.dirs then st.dirs else st.dirs ++ [key])
              (alSet st.metas key rel0.version) key rel0 := by
            constructor
            · by_cases hkd : key ∈ st.dirs
              · rw [if_pos hkd]; exact hkd
              · rw [if_neg hkd]
                exact List.mem_append.mpr (Or.inr (List.mem_singleton.mpr rfl))
            · intro m hm
              rw [alGet_set_self] at hm
              have hmv : m = rel0.version := (Option.some.inj hm).symm
              subst hmv
              right
              rw [(hvo key rel0 hr0).1, string_mk_data]
              exact compareVersions_self rel0.version
          rcases List.mem_cons.mp hk with hk1 | hk1
          · subst hk1
            have hrel : rel0 = rel := by
              rw [hr0] at hres
              exact Option.some.inj hres
            subst hrel
            by_cases hex : (decide (k ∈ st.dirs) ||
                (currentVersionOf st.metas lock k).isSome) = true
            · rw [if_pos hex] at h
              exact diff_preserve repo resolved lock keys _ dst h k rel0 hres
                (hvo k rel0 hres) hgood2
            · rw [if_neg hex] at h
              exact diff_preserve repo resolved lock keys _ dst h k rel0 hres
                (hvo k rel0 hres) hgood2
          · by_cases hex : (decide (key ∈ st.dirs) ||
                (currentVersionOf st.metas lock key).isSome) = true
            · rw [if_pos hex] at h
              exact diff_establish repo resolved lock hvo hurl hdl keys _ dst h k hk1 rel hres
            · rw [if_neg hex] at h
              exact diff_establish repo resolved lock hvo hurl hdl keys _ dst h k hk1 rel hres

/-- When every visited key is resolved, `KeyGood`, and locked at its
resolved version, the install/update pass classifies every key as
unchanged and changes nothing else. -/
theorem diff_second (repo : ReleaseRepository) (resolved : AList SkillRelease)
    (lock : AList String) :
    ∀ (keys : List String) (st : DiffState),
      (∀ k ∈ keys, ∃ rel, alGet resolved k = some rel ∧ VersionOk rel ∧
        alGet lock k = some rel.version ∧ KeyGood st.dirs st.metas k rel) →
      diffLoop repo resolved lock keys st =
        .ok { st with unchanged := st.unchanged ++ keys }
  | [], st, hks => by
    unfold diffLoop
    rw [List.append_nil]
  | key :: keys, st, hks => by
    obtain ⟨rel, hres, hvo, hlock, hgood⟩ := hks key (List.mem_cons.mpr (Or.inl rfl))
    have hvne : ¬pyStrip rel.version.data = [] := by
      rw [hvo.1]
      exact hvo.2
    unfold diffLoop
    rw [hres]
    dsimp only
    have hcv : ∃ v, currentVersionOf st.metas lock key = some v ∧
        compareVersions v rel.version = 0 := by
      unfold currentVersionOf
      cases hm : alGet st.metas key with
      | some m =>
        dsimp only
        by_cases hms : pyStrip m.data = []
        · rw [if_pos hms, hlock]
          dsimp only
          rw [if_neg hvne]
          refine ⟨String.mk (pyStrip rel.version.data), rfl, ?_⟩
          rw [hvo.1, string_mk_data]
          exact compareVersions_self rel.version
        · rw [if_neg hms]
          refine ⟨String.mk (pyStrip m.data), rfl, ?_⟩
          rcases hgood.2 m hm with h1 | h1
          · exact absurd h1 hms
          · exact h1
      | none =>
        dsimp only
        rw [hlock]
        dsimp only
        rw [if_neg hvne]
        refine ⟨String.mk (pyStrip rel.version.data), rfl, ?_⟩
        rw [hvo.1, string_mk_data]
        exact compareVersions_self rel.version
    obtain ⟨v, hv, hcmp⟩ := hcv
    have hcond : (decide (key ∈ st.dirs) &&
        (match currentVersionOf st.metas lock key with
         | some v => compareVersions v rel.version == 0
         | none => false)) = true := by
      rw [hv]
      dsimp only
      rw [Bool.and_eq_true_iff]
      exact ⟨decide_eq_true hgood.1, beq_iff_eq.mpr hcmp⟩
    rw [if_pos hcond]
    rw [diff_second repo resolved lock keys { st with unchanged := st.unchanged ++ [key] }
      (fun k hk => hks k (List.mem_cons.mpr (Or.inr hk)))]
    dsimp only
    rw [List.append_assoc, List.singleton_append]

/-- The prune pass never touches a resolved key: its directory and meta
entry survive unchanged. -/
theorem prune_preserve (resolved : AList SkillRelease) :
    ∀ (keys removed dirs : List String) (metas : AList String)
      (rm2 dirs2 : List String) (metas2 : AList String),
      pruneLoop resolved keys removed dirs metas = .ok (rm2, dirs2, metas2) →
      ∀ k, (alGet resolved k).isSome = true →
        (k ∈ dirs → k ∈ dirs2) ∧ alGet metas2 k = alGet metas k
  | [], removed, dirs, metas, rm2, dirs2, metas2, h, k, hk => by
    unfold pruneLoop at h
    cases Except.ok.inj h
    exact ⟨id, rfl⟩
  | key :: keys, removed, dirs, metas, rm2, dirs2, metas2, h, k, hk => by
    unfold pruneLoop at h
    by_cases hks : (alGet resolved key).isSome = true
    · rw [if_pos hks] at h
      exact prune_preserve resolved keys removed dirs metas rm2 dirs2 metas2 h k hk
    · rw [if_neg hks] at h
      cases hp : parseSkillRef key with
      | error e => rw [hp] at h; exact Except.noConfusion h
      | ok ref =>
        rw [hp] at h
        dsimp only at h
        have hkey : key ≠ k := fun he => by
          subst he
          exact hks hk
        have hih := prune_preserve resolved keys (removed ++ [key]) (dirs.erase key)
          (alPop metas key) rm2 dirs2 metas2 h k hk
        refine ⟨fun hd => hih.1 ((List.mem_erase_of_ne fun he => hkey he.symm).mpr hd), ?_⟩
        rw [hih.2, alGet_pop_ne metas key k hkey]

/-- When every locked key is still resolved, the prune pass removes
nothing. -/
theorem prune_second (resolved : AList SkillRelease) :
    ∀ (keys : List String) (removed dirs : List String) (metas : AList String),
      (∀ k ∈ keys, (alGet resolved k).isSome = true) →
      pruneLoop resolved keys removed dirs metas = .ok (removed, dirs, metas)
  | [], removed, dirs, metas, _ => rfl
  | key :: keys, removed, dirs, metas, hks => by
    unfold pruneLoop
    rw [if_pos (hks key (List.mem_cons.mpr (Or.inl rfl)))]
    exact prune_second resolved keys removed dirs metas
      (fun k hk => hks k (List.mem_cons.mpr (Or.inr hk)))

/-- **C5.** Reconcile is idempotent: for every direct requirement set
and fixed remote catalog honouring the repository contract
(`RepoWellFormed`: served versions are stripped and nonempty, and
`download_archive` reports a missing download URL only for releases
without one, as `ApiReleaseRepository` guarantees), a second reconcile
immediately after a successful one — requirements, catalog and local
state unchanged — succeeds and returns empty `installed`, `updated` and
`removed`, with every key of the resolved graph (= every key of the
saved lock) listed under `unchanged`. -/
theorem c5_reconcile_idempotent (repo : ReleaseRepository) (fuel : Nat)
    (direct : List (String × String)) (st st1 : LocalState) (res1 : ReconcileResult)
    (hwf : RepoWellFormed repo)
    (h1 : reconcile repo fuel direct st = .ok (res1, st1)) :
    ∃ res2 st2, reconcile repo fuel direct st1 = .ok (res2, st2) ∧
      res2.installed = [] ∧ res2.updated = [] ∧ res2.removed = [] ∧
      ∀ k ∈ alKeys st1.lockSkills, k ∈ res2.unchanged := by
  obtain ⟨hL, hG, hDL⟩ := hwf
  unfold reconcile at h1
  cases hc : cleanDirect direct [] with
  | error e => rw [hc] at h1; exact Except.noConfusion h1
  | ok cleaned =>
    rw [hc] at h1
    dsimp only at h1
    cases hdrop : dropLoop repo fuel (cleaned.length + 1) cleaned [] with
    | error e => rw [hdrop] at h1; exact Except.noConfusion h1
    | ok trip =>
      obtain ⟨resolved, effective, warnings⟩ := trip
      rw [hdrop] at h1
      dsimp only at h1
      cases hdiff : diffLoop repo resolved st.lockSkills (sortStrings (alKeys resolved))
          ⟨[], [], [], warnings, st.dirs, st.metas⟩ with
      | error e => rw [hdiff] at h1; exact Except.noConfusion h1
      | ok dst =>
        rw [hdiff] at h1
        dsimp only at h1
        cases hprune : pruneLoop resolved (sortStrings (alKeys st.lockSkills)) []
            dst.dirs dst.metas with
        | error e => rw [hprune] at h1; exact Except.noConfusion h1
        | ok trip2 =>
          obtain ⟨removed, dirs2, metas2⟩ := trip2
          rw [hprune] at h1
          dsimp only at h1
          have hst1 : (⟨dirs2, metas2, newLockSkills resolved, sortPairs effective⟩ :
              LocalState) = st1 := congrArg Prod.snd (Except.ok.inj h1)
          subst hst1
          have hQ : ∀ k rel, alGet resolved k = some rel →
              hasDownloadUrl rel = true ∧ VersionOk rel := by
            rcases dropLoop_resolved_origin repo fuel (cleaned.length + 1) cleaned []
                resolved effective warnings hdrop with hnil | ⟨eff0, cons0, hres⟩
            · subst hnil
              intro k rel hk
              exact Option.noConfusion hk
            · exact fun k rel hk =>
                (resolve_ok_selvals repo fuel eff0 resolved cons0 hL hG hres).2 k rel hk
          have hkg : ∀ k ∈ sortStrings (alKeys resolved), ∀ rel, alGet resolved k = some rel →
              KeyGood dst.dirs dst.metas k rel :=
            diff_establish repo resolved st.lockSkills
              (fun k rel hk => (hQ k rel hk).2) (fun k rel hk => (hQ k rel hk).1) hDL
              (sortStrings (alKeys resolved)) _ dst hdiff
          have hpp := prune_preserve resolved (sortStrings (alKeys st.lockSkills)) []
            dst.dirs dst.metas removed dirs2 metas2 hprune
          have hsecond : ∀ k ∈ sortStrings (alKeys resolved), ∃ rel,
              alGet resolved k = some rel ∧ VersionOk rel ∧
              alGet (newLockSkills resolved) k = some rel.version ∧
              KeyGood dirs2 metas2 k rel := by
            intro k hk
            have hkm : k ∈ alKeys resolved := (mem_sortStrings _ k).mp hk
            have hsome := alGet_isSome_of_mem_keys resolved k hkm
            cases hak : alGet resolved k with
            | none =>
              rw [hak] at hsome
              exact Bool.noConfusion hsome
            | some rel =>
              refine ⟨rel, rfl, (hQ k rel hak).2, alGet_newLockSkills resolved k rel hak, ?_⟩
              have hg1 := hkg k hk rel hak
              have hp1 := hpp k (by rw [hak]; rfl)
              exact ⟨hp1.1 hg1.1, fun m hm => hg1.2 m (by rw [← hp1.2]; exact hm)⟩
          refine ⟨⟨[], [], [], [] ++ sortStrings (alKeys resolved), warnings⟩,
                  ⟨dirs2, metas2, newLockSkills resolved, sortPairs effective⟩,
                  ?_, rfl, rfl, rfl, ?_⟩
          · unfold reconcile
            rw [hc]
            dsimp only
            rw [hdrop]
            dsimp only
            rw [diff_second repo resolved (newLockSkills resolved)
              (sortStrings (alKeys resolved)) ⟨[], [], [], warnings, dirs2, metas2⟩ hsecond]
            dsimp only
            rw [prune_second resolved (sortStrings (alKeys (newLockSkills resolved)))
              [] dirs2 metas2
              (fun k hk => (mem_keys_newLockSkills resolved k ((mem_sortStrings _ k).mp hk)).2)]
          · intro k hk
            dsimp only at hk
            exact (mem_keys_newLockSkills resolved k hk).1

/-- `wfRepo` honours the repository contract. -/
theorem wfRepo_wellformed : RepoWellFormed wfRepo := by
  refine ⟨?_, ?_, ?_⟩
  · intro ref rels h
    dsimp only [wfRepo] at h
    by_cases hk : ref.key = "acme/app"
    · rw [if_pos hk] at h
      have hr : [mkRel "acme" "app" "1.0.0"] = rels := Except.ok.inj h
      subst hr
      intro rel hrel
      have he : rel = mkRel "acme" "app" "1.0.0" := List.mem_singleton.mp hrel
      subst he
      exact ⟨by decide, by decide⟩
    · rw [if_neg hk] at h
      exact Except.noConfusion h
  · intro ref v rel h
    dsimp only [wfRepo] at h
    by_cases hk : ref.key = "acme/app"
    · rw [if_pos hk] at h
      have hr := Except.ok.inj h
      by_cases hv : (compareVersions v "1.0.0" == 0) = true
      · rw [if_pos hv] at hr
        have he : rel = mkRel "acme" "app" "1.0.0" := (Option.some.inj hr).symm
        subst he
        exact ⟨by decide, by decide⟩
      · rw [if_neg hv] at hr
        exact Option.noConfusion hr
    · rw [if_neg hk] at h
      exact Except.noConfusion h
  · intro rel e hurl h
    dsimp only [wfRepo] at h
    rw [if_pos hurl] at h
    exact Except.noConfusion h

/-- Witness for C5: with `wfRepo`, a first reconcile of `acme/app` from
an empty local state installs it; the theorem applied to that run gives
a successful second reconcile with nothing installed, updated or
removed and the locked key unchanged. -/
theorem c5_witness :
    reconcile wfRepo 10 [("acme/app", "latest")] ⟨[], [], [], []⟩ =
      .ok (⟨["acme/app"], [], [], [], []⟩,
           ⟨["acme/app"], [("acme/app", "1.0.0")], [("acme/app", "1.0.0")],
            [("acme/app", "latest")]⟩)
    ∧ ∃ res2 st2,
        reconcile wfRepo 10 [("acme/app", "latest")]
            ⟨["acme/app"], [("acme/app", "1.0.0")], [("acme/app", "1.0.0")],
             [("acme/app", "latest")]⟩ = .ok (res2, st2) ∧
          res2.installed = [] ∧ res2.updated = [] ∧ res2.removed = [] ∧
          ∀ k ∈ alKeys [("acme/app", "1.0.0")], k ∈ res2.unchanged :=
  ⟨by decide,
   c5_reconcile_idempotent wfRepo 10 [("acme/app", "latest")] ⟨[], [], [], []⟩
     ⟨["acme/app"], [("acme/app", "1.0.0")], [("acme/app", "1.0.0")],
      [("acme/app", "latest")]⟩
     ⟨["acme/app"], [], [], [], []⟩ wfRepo_wellformed (by decide)⟩

end Skilldock
